import Mathlib

/-!
# pwtool: verification of the random-selection core, the CSV writer and the
command-line defaults

A shallow embedding of `src/pwtool.cpp`.

* The entropy source (`RAND_bytes`, one byte per call) is an explicit list of
  draw outcomes, consumed front to back: `some b` is a successful call that
  delivered byte `b`, `none` is a call on which `RAND_bytes` did not return 1.
  A computation that asks for a draw when the list is used up has not
  returned yet (`Res.starved`): the list is the fuel of the rejection loop.
* C++ exceptions are the `Error` values carried by `Res.err`.
* A `std::string` / `std::vector<char>` is a `List Char`, one `Char` per C++
  `char`; `size_t` values are natural numbers.
* `operator[]` outside the container is undefined behaviour in C++; the
  embedding makes that branch explicit as `Error.outOfRange`.
* A file is the sequence of chars written to it; `std::exit` is the outcome
  `Parsed.exit`; the library call `std::stoull` is a parameter.
-/

namespace PwTool

/-- One `unsigned char` delivered by the entropy source. -/
abbrev Byte := Fin 256

/-- Outcome of one call `csprng_bytes(&b, 1)`: the byte, or `none` when
`RAND_bytes` reports failure. -/
abbrev Draw := Option Byte

/-- The exceptions of the program, and the undefined-behaviour branch of an
unchecked element access. -/
inductive Error where
  /-- Thrown by `uniform_index`: `std::invalid_argument("n must be > 0")`. -/
  | invalidDomain
  /-- Thrown by `generate_password`:
  `std::invalid_argument("length must be >= 16")`. -/
  | invalidLength
  /-- Thrown by `csprng_bytes`: `std::runtime_error("RAND_bytes failed")`. -/
  | entropyUnavailable
  /-- An `operator[]` access outside the container. -/
  | outOfRange
  deriving DecidableEq

/-- Result of running a computation on a list of draws: a value together with
the draws left over, an exception, or `starved` when the computation asked
for a draw beyond the end of the list (it has not returned yet). -/
inductive Res (α : Type) where
  | ok (a : α) (rest : List Draw)
  | err (e : Error)
  | starved
  deriving DecidableEq

/-- Sequencing: exceptions and starvation of the first computation propagate
unchanged (no `catch` in the core). -/
def Res.bind {α β : Type} (r : Res α) (f : α → List Draw → Res β) : Res β :=
  match r with
  | .ok a rest => f a rest
  | .err e => .err e
  | .starved => .starved

/-- The call `csprng_bytes(&b, 1)`: one call to `RAND_bytes`; throws when it
fails. -/
def csprng_bytes : List Draw → Res Byte
  | [] => .starved
  | none :: _ => .err .entropyUnavailable
  | some b :: rest => .ok b rest

/-- The rejection threshold `const unsigned int max = 256 - (256 % n);`.
`256 % n ≤ 256`, so the subtraction does not wrap and the value fits
`unsigned int`. -/
def limit (n : Nat) : Nat := 256 - 256 % n

/-- The loop `do { csprng_bytes(&b, 1); } while (b >= max); return b % n;`. -/
def uniform_index_loop (n max : Nat) : List Draw → Res Nat
  | [] => .starved
  | none :: _ => .err .entropyUnavailable
  | some b :: rest =>
    if b.val ≥ max then uniform_index_loop n max rest else .ok (b.val % n) rest

/-- The function `uniform_index(n)`: the domain check, the threshold, the
rejection loop. -/
def uniform_index (n : Nat) (ds : List Draw) : Res Nat :=
  if n = 0 then .err .invalidDomain
  else uniform_index_loop n (limit n) ds

/-- The statement `std::swap(v[a], v[b])`; `none` when an index is outside the
vector. -/
def swap {α : Type} (v : List α) (a b : Nat) : Option (List α) :=
  match v[a]?, v[b]? with
  | some x, some y => some ((v.set a y).set b x)
  | _, _ => none

/-- The loop `for (size_t i = v.size(); i > 1; --i)` of `secure_shuffle`,
entered with loop variable `i`. -/
def secure_shuffle_loop {α : Type} : Nat → List α → List Draw → Res (List α)
  | 0, v, ds => .ok v ds
  | i + 1, v, ds =>
    if i + 1 > 1 then
      (uniform_index (i + 1) ds).bind fun j ds1 =>
        match swap v i j with
        | none => .err .outOfRange
        | some v1 => secure_shuffle_loop i v1 ds1
    else .ok v ds

/-- The function `secure_shuffle(v)`: the loop entered with `i = v.size()`. -/
def secure_shuffle {α : Type} (v : List α) (ds : List Draw) : Res (List α) :=
  secure_shuffle_loop v.length v ds

/-- The statement `out.push_back((*c)[uniform_index(c->size())])`, with `cls`
for `*c`. -/
def push_random (cls out : List Char) (ds : List Draw) : Res (List Char) :=
  (uniform_index cls.length ds).bind fun i ds1 =>
    match cls[i]? with
    | none => .err .outOfRange
    | some ch => .ok (out ++ [ch]) ds1

/-- The loop `for (const auto* c : cats) for (int k = 0; k < 2; ++k)
out.push_back(...)`. -/
def draw_minimums : List (List Char) → List Char → List Draw → Res (List Char)
  | [], out, ds => .ok out ds
  | c :: cats, out, ds =>
    (push_random c out ds).bind fun out1 ds1 =>
      (push_random c out1 ds1).bind fun out2 ds2 =>
        draw_minimums cats out2 ds2

/-- The loop `while (out.size() < length) out.push_back(all[...])`. The first
argument bounds the number of iterations; `generate_password` passes
`length - out.size()`, the number of iterations the loop needs. -/
def fill : Nat → List Char → Nat → List Char → List Draw → Res (List Char)
  | 0, _, _, out, ds => .ok out ds
  | k + 1, all, length, out, ds =>
    if out.length < length then
      (push_random all out ds).bind fun out1 ds1 => fill k all length out1 ds1
    else .ok out ds

/-- The uppercase class `U`. -/
def U : List Char := "ABCDEFGHIJKLMNOPQRSTUVWXYZ".data

/-- The lowercase class `L`. -/
def L : List Char := "abcdefghijklmnopqrstuvwxyz".data

/-- The digit class `D`. -/
def D : List Char := "0123456789".data

/-- The default special set `"!@#$%^&*()-_=+[]{};:,.?"`. -/
def default_specials : List Char := "!@#$%^&*()-_=+[]\x7b\x7d;:,.?".data

/-- The special class `S`: the override unless it is empty. -/
def S (specials_override : List Char) : List Char :=
  if specials_override.isEmpty then default_specials else specials_override

/-- The active classes `cats`: `{ &U, &L, &D }`, then `&S` unless
`no_special`. -/
def cats (specials_override : List Char) (no_special : Bool) : List (List Char) :=
  [U, L, D] ++ (if !no_special then [S specials_override] else [])

/-- The function `generate_password(length, specials_override, no_special)`. -/
def generate_password (length : Nat) (specials_override : List Char)
    (no_special : Bool) (ds : List Draw) : Res (List Char) :=
  if length < 16 then .err .invalidLength
  else
    let cs := cats specials_override no_special
    (draw_minimums cs [] ds).bind fun out ds1 =>
      let all := cs.flatten
      (fill (length - out.length) all length out ds1).bind fun out1 ds2 =>
        secure_shuffle out1 ds2

/-- The scan `for (unsigned char c : s) if (c == ',' || ...) { needs_quotes =
true; break; }`. -/
def needs_quotes : List Char → Bool
  | [] => false
  | c :: s => if c = ',' ∨ c = '"' ∨ c = '\n' ∨ c = '\r' then true else needs_quotes s

/-- The function `csv_escape(s)`. -/
def csv_escape (s : List Char) : List Char :=
  if !needs_quotes s then s
  else
    let out : List Char := ['"']
    let out := s.foldl (fun acc c => acc ++ (if c = '"' then ['"', '"'] else [c])) out
    out ++ ['"']

/-- The ways a computation of the core depends on its list of draws. -/
structure Lawful {α : Type} (f : List Draw → Res α) : Prop where
  /-- A returned value does not depend on draws that were not read. -/
  ok_frame : ∀ ds a r, f ds = .ok a r → ∀ x, f (ds ++ x) = .ok a (r ++ x)
  /-- A returning computation has read successful draws only. -/
  ok_consumed : ∀ ds a r, f ds = .ok a r → ∃ pre : List Byte, ds = pre.map some ++ r
  /-- A thrown exception does not depend on draws that were not read. -/
  err_frame : ∀ ds e, f ds = .err e → ∀ x, f (ds ++ x) = .err e
  /-- A computation waiting for its next draw throws when that draw fails. -/
  starved_fail : ∀ ds, f ds = .starved →
    ∀ rest, f (ds ++ none :: rest) = .err .entropyUnavailable

/-- An entropy source that never fails: the byte delivered by each successive
call of `csprng_bytes`. -/
abbrev ByteStream := Nat → Byte

/-- Every byte value occurs infinitely often in the stream. -/
def Fair (s : ByteStream) : Prop := ∀ b : Byte, ∀ N : Nat, ∃ i, N ≤ i ∧ s i = b

/-- The outcomes of the `m` calls of `csprng_bytes` that start at call number
`p` of a never-failing stream. -/
def draws (s : ByteStream) : Nat → Nat → List Draw
  | _, 0 => []
  | p, m + 1 => some (s p) :: draws s (p + 1) m

/-- Started at call number `p` of the stream `s`, the computation returns after
finitely many draws, with a value satisfying `Q`. -/
def Completes {α : Type} (f : List Draw → Res α) (s : ByteStream) (p : Nat)
    (Q : α → Prop) : Prop :=
  ∃ m a, f (draws s p m) = .ok a [] ∧ Q a

/-- While every draw succeeds the computation throws nothing, and a value it
returns satisfies `Q`. -/
def Safe {α : Type} (f : List Draw → Res α) (Q : α → Prop) : Prop :=
  ∀ pre : List Byte,
    (∀ e, f (pre.map some) ≠ .err e) ∧ ∀ a r, f (pre.map some) = .ok a r → Q a

/-- The never-failing stream that delivers the bytes 0, 1, ..., 255, 0, 1, ...
in turn. -/
def counter : ByteStream := fun i => Fin.ofNat i

/-- Undo the doubling of double quotes: each pair of adjacent double quotes
becomes one, every other character is kept. -/
def csv_unquote : List Char → List Char
  | [] => []
  | [ch] => [ch]
  | a :: b :: t =>
    if a = '"' ∧ b = '"' then '"' :: csv_unquote t else a :: csv_unquote (b :: t)

/-- The decoder of a CSV field: a field that starts with a double quote loses
its outer quotes and has each doubled double quote replaced by one; any other
field is returned as it is. -/
def csv_decode : List Char → List Char
  | [] => []
  | a :: t => if a = '"' then csv_unquote t.dropLast else a :: t

/-- The UTF-8 byte-order mark `bom[3] = { 0xEF, 0xBB, 0xBF }`, one `Char` per
byte. -/
def bom : List Char := [Char.ofNat 0xEF, Char.ofNat 0xBB, Char.ofNat 0xBF]

/-- The loop `for (size_t i = 0; i < pwds.size(); ++i) f << (i + 1) << ","
<< csv_escape(pwds[i]) << "\r\n";` entered with index `i`, the passwords from
`i` on, and the content `f` written so far. -/
def write_csv_loop : Nat → List (List Char) → List Char → List Char
  | _, [], f => f
  | i, p :: ps, f =>
    write_csv_loop (i + 1) ps
      (f ++ (Nat.repr (i + 1)).data ++ [','] ++ csv_escape p ++ ['\r', '\n'])

/-- The content `write_csv` writes to the file; `none` when the file cannot be
opened (the function throws). -/
def write_csv (opened : Bool) (pwds : List (List Char)) : Option (List Char) :=
  if !opened then none
  else
    let f : List Char := bom
    let f := f ++ "#,Password\r\n".data
    some (write_csv_loop 0 pwds f)

/-- The command-line options `struct Options`, with its default member
initialisers. -/
structure Options where
  count : Nat := 10
  length : Nat := 16
  specials : List Char := []
  quiet : Bool := false
  nospecial : Bool := false
  out_txt : List Char := []
  out_csv : List Char := []
  deriving DecidableEq

/-- What `parse_args` does: return the options, or leave the process through
`std::exit(code)`. -/
inductive Parsed where
  | opts (opt : Options)
  | exit (code : Nat)
  deriving DecidableEq

/-- The helper `parse_size_t(s, out)`. The library call `std::stoull(s, &idx,
10)` is the parameter `stoull`: it gives the value and `idx`, or `none` when
it throws. The result is the value stored in `out`, or `none` for `false`. -/
def parse_size_t (stoull : List Char → Option (Nat × Nat)) (s : List Char) :
    Option Nat :=
  match stoull s with
  | none => none
  | some (v, idx) => if idx ≠ s.length then none else some v

/-- The loop `for (int i = 1; i < argc; ++i)` of `parse_args`, on the arguments
not yet read and the options so far. -/
def parse_args_loop (stoull : List Char → Option (Nat × Nat)) :
    List (List Char) → Options → Parsed
  | [], opt => .opts opt
  | a :: rest, opt =>
    if a = "-h".data then .exit 0
    else if a = "-n".data then
      match rest with
      | [] => .exit 1
      | v :: rest1 =>
        match parse_size_t stoull v with
        | none => .exit 1
        | some n =>
          if n = 0 then .exit 1
          else parse_args_loop stoull rest1 { opt with count := n }
    else if a = "-l".data then
      match rest with
      | [] => .exit 1
      | v :: rest1 =>
        match parse_size_t stoull v with
        | none => .exit 1
        | some n =>
          if n < 16 then .exit 1
          else parse_args_loop stoull rest1 { opt with length := n }
    else if a = "--specials".data then
      match rest with
      | [] => .exit 1
      | v :: rest1 => parse_args_loop stoull rest1 { opt with specials := v }
    else if a = "--nospecial".data then
      parse_args_loop stoull rest { opt with nospecial := true }
    else if a = "-txt".data then
      match rest with
      | [] => .exit 1
      | v :: rest1 => parse_args_loop stoull rest1 { opt with out_txt := v }
    else if a = "-csv".data then
      match rest with
      | [] => .exit 1
      | v :: rest1 => parse_args_loop stoull rest1 { opt with out_csv := v }
    else if a = "-q".data then
      parse_args_loop stoull rest { opt with quiet := true }
    else .exit 1

/-- The function `parse_args(argc, argv)`: `argv[0]` is the program name, the
loop starts at `argv[1]`. -/
def parse_args (stoull : List Char → Option (Nat × Nat)) (argv : List (List Char)) :
    Parsed :=
  parse_args_loop stoull (argv.drop 1) {}

/-- The loop `for (size_t i = 0; i < opt.count; ++i) pwds.emplace_back(
generate_password(...))` of `main`, with the number of iterations left. -/
def generate_passwords : Nat → Nat → List Char → Bool → List (List Char) →
    List Draw → Res (List (List Char))
  | 0, _, _, _, pwds, ds => .ok pwds ds
  | k + 1, length, specials, nospecial, pwds, ds =>
    (generate_password length specials nospecial ds).bind fun p ds1 =>
      generate_passwords k length specials nospecial (pwds ++ [p]) ds1

/-- The passwords `main` generates: `none` when `parse_args` left the process,
else the outcome of the generation loop. -/
def main_passwords (stoull : List Char → Option (Nat × Nat)) (argv : List (List Char))
    (ds : List Draw) : Option (Res (List (List Char))) :=
  match parse_args stoull argv with
  | .exit _ => none
  | .opts opt => some (generate_passwords opt.count opt.length opt.specials opt.nospecial [] ds)

/-- The arguments of the `uniform_index` calls that the minimum-draw loop makes
on the given draws, in call order. -/
def draw_minimums_calls : List (List Char) → List Char → List Draw → List Nat
  | [], _, _ => []
  | cls :: cats, out, ds =>
    cls.length ::
      match push_random cls out ds with
      | .ok out1 ds1 =>
        cls.length ::
          match push_random cls out1 ds1 with
          | .ok out2 ds2 => draw_minimums_calls cats out2 ds2
          | _ => []
      | _ => []

/-- The arguments of the `uniform_index` calls that the fill loop makes on the
given draws, in call order. -/
def fill_calls : Nat → List Char → Nat → List Char → List Draw → List Nat
  | 0, _, _, _, _ => []
  | k + 1, all, length, out, ds =>
    if out.length < length then
      all.length ::
        match push_random all out ds with
        | .ok out1 ds1 => fill_calls k all length out1 ds1
        | _ => []
    else []

/-- The arguments of the `uniform_index` calls that the shuffle loop, entered
with loop variable `i`, makes on the given draws, in call order. -/
def secure_shuffle_loop_calls {α : Type} : Nat → List α → List Draw → List Nat
  | 0, _, _ => []
  | i + 1, v, ds =>
    if i + 1 > 1 then
      (i + 1) ::
        match uniform_index (i + 1) ds with
        | .ok j ds1 =>
          match swap v i j with
          | none => []
          | some v1 => secure_shuffle_loop_calls i v1 ds1
        | _ => []
    else []

/-- The arguments of all `uniform_index` calls that `generate_password` makes
on the given draws, in call order: those of the minimum draws, then, when
that stage returns, those of the fill, then, when that returns, those of the
shuffle. -/
def generate_password_calls (length : Nat) (specials_override : List Char)
    (no_special : Bool) (ds : List Draw) : List Nat :=
  if length < 16 then []
  else
    let cs := cats specials_override no_special
    draw_minimums_calls cs [] ds ++
      match draw_minimums cs [] ds with
      | .ok out ds1 =>
        let all := cs.flatten
        fill_calls (length - out.length) all length out ds1 ++
          match fill (length - out.length) all length out ds1 with
          | .ok out1 ds2 => secure_shuffle_loop_calls out1.length out1 ds2
          | _ => []
      | _ => []

/-- The loop of `secure_shuffle` with the index `j` of each iteration given
directly instead of drawn: `js` lists the indices, first iteration first.
The result is `none` when the list runs out or a swap is out of range. -/
def shuffle_with {α : Type} : Nat → List α → List Nat → Option (List α)
  | 0, v, _ => some v
  | i + 1, v, js =>
    if i + 1 > 1 then
      match js with
      | [] => none
      | j :: js1 =>
        match swap v i j with
        | none => none
        | some v1 => shuffle_with i v1 js1
    else some v

/-- The index choices a shuffle entered with loop variable `i` can draw: one
index for each iteration `i, i - 1, ..., 2`, each below its loop variable. -/
def valid_choices : Nat → List Nat → Bool
  | 0, js => js.isEmpty
  | i + 1, js =>
    if i + 1 > 1 then
      match js with
      | [] => false
      | j :: js1 => decide (j < i + 1) && valid_choices i js1
    else js.isEmpty

/-- The never-failing stream that delivers the byte 255 at every call. -/
def all255 : ByteStream := fun _ => 255

/-- The indices a shuffle entered with loop variable `i` draws: the result of
`uniform_index(i)`, then of `uniform_index(i - 1)`, ..., then of
`uniform_index(2)`, each on the draws the previous call left. -/
def draw_indices : Nat → List Draw → Res (List Nat)
  | 0, ds => .ok [] ds
  | i + 1, ds =>
    if i + 1 > 1 then
      (uniform_index (i + 1) ds).bind fun j ds1 =>
        (draw_indices i ds1).bind fun js ds2 => .ok (j :: js) ds2
    else .ok [] ds

/-- The byte sequences, one byte per iteration, on which a shuffle entered with
loop variable `i` draws the indices `js`: for the iteration with loop variable
`k` any accepted byte `b` (`b < limit k`) with `b % k` the wanted index. -/
def byte_runs : Nat → List Nat → Finset (List Byte)
  | 0, js => if js.isEmpty then {[]} else ∅
  | i + 1, js =>
    if i + 1 > 1 then
      match js with
      | [] => ∅
      | j :: js1 =>
        ((Finset.univ.filter fun b : Byte => b.val < limit (i + 1) ∧ b.val % (i + 1) = j) ×ˢ
          byte_runs i js1).image fun p => p.1 :: p.2
    else if js.isEmpty then {[]} else ∅


/-! ## The sampler -/

theorem limit_le (n : Nat) : limit n ≤ 256 := Nat.sub_le _ _

theorem limit_pos {n : Nat} (h1 : 1 ≤ n) (h2 : n ≤ 256) : 0 < limit n := by
  unfold limit
  have : 256 % n < n := Nat.mod_lt _ h1
  omega

theorem le_of_limit_pos {n : Nat} (h : 0 < limit n) : n ≤ 256 := by
  unfold limit at h
  by_contra hn
  have : 256 % n = 256 := Nat.mod_eq_of_lt (by omega)
  omega

theorem limit_eq_mul (n : Nat) : limit n = n * (256 / n) := by
  unfold limit
  have := Nat.div_add_mod 256 n
  omega

/-- One pass of the rejection loop is one call of `csprng_bytes` followed by
the test of the byte against the threshold. -/
theorem uniform_index_loop_eq (n max : Nat) (ds : List Draw) :
    uniform_index_loop n max ds =
      (csprng_bytes ds).bind fun b rest =>
        if b.val ≥ max then uniform_index_loop n max rest else .ok (b.val % n) rest := by
  cases ds with
  | nil => rfl
  | cons d ds =>
    cases d with
    | none => rfl
    | some b => simp [uniform_index_loop, csprng_bytes, Res.bind]

/-- What a returning rejection loop did: it skipped a run of successful draws
that were all `≥ max`, accepted the next draw `b < max`, and returned
`b % n` with everything after `b` left unread. -/
theorem uniform_index_loop_ok {n max : Nat} {ds rest : List Draw} {i : Nat}
    (h : uniform_index_loop n max ds = .ok i rest) :
    ∃ (pre : List Byte) (b : Byte), ds = pre.map some ++ some b :: rest ∧
      (∀ x ∈ pre, max ≤ x.val) ∧ b.val < max ∧ i = b.val % n := by
  induction ds with
  | nil => simp [uniform_index_loop] at h
  | cons d ds ih =>
    cases d with
    | none => simp [uniform_index_loop] at h
    | some b =>
      by_cases hb : b.val ≥ max
      · rw [uniform_index_loop, if_pos hb] at h
        obtain ⟨pre, b1, hds, hpre, hb1, hi⟩ := ih h
        refine ⟨b :: pre, b1, by simp [hds], ?_, hb1, hi⟩
        intro x hx
        rcases List.mem_cons.mp hx with rfl | hx
        · exact hb
        · exact hpre x hx
      · rw [uniform_index_loop, if_neg hb] at h
        injection h with h1 h2
        exact ⟨[], b, by simp [h2], by simp, by omega, h1.symm⟩

theorem uniform_index_ok {n : Nat} {ds rest : List Draw} {i : Nat}
    (h : uniform_index n ds = .ok i rest) :
    1 ≤ n ∧ n ≤ 256 ∧ i < n ∧
    ∃ (pre : List Byte) (b : Byte), ds = pre.map some ++ some b :: rest ∧
      (∀ x ∈ pre, limit n ≤ x.val) ∧ b.val < limit n ∧ i = b.val % n := by
  unfold uniform_index at h
  split at h
  · cases h
  · rename_i hn
    obtain ⟨pre, b, hds, hpre, hb, hi⟩ := uniform_index_loop_ok h
    have hpos : 0 < limit n := by omega
    refine ⟨by omega, le_of_limit_pos hpos, ?_, pre, b, hds, hpre, hb, hi⟩
    rw [hi]
    exact Nat.mod_lt _ (by omega)

/-! ## How a computation uses the draws -/

theorem lawful_pure {α : Type} (a : α) : Lawful (fun ds => Res.ok a ds) where
  ok_frame := by
    intro ds a1 r h x
    injection h with h1 h2
    subst h1 h2
    rfl
  ok_consumed := by
    intro ds a1 r h
    injection h with h1 h2
    exact ⟨[], by simp [h2]⟩
  err_frame := by intro ds e h; cases h
  starved_fail := by intro ds h; cases h

theorem lawful_throw {α : Type} (e : Error) : Lawful (fun _ => (Res.err e : Res α)) where
  ok_frame := by intro ds a r h; cases h
  ok_consumed := by intro ds a r h; cases h
  err_frame := by intro ds e1 h x; exact h
  starved_fail := by intro ds h; cases h

theorem lawful_bind {α β : Type} {f : List Draw → Res α} {g : α → List Draw → Res β}
    (hf : Lawful f) (hg : ∀ a, Lawful (g a)) : Lawful (fun ds => (f ds).bind g) where
  ok_frame := by
    intro ds b r h x
    cases hfd : f ds with
    | ok a r1 =>
      simp only [hfd, Res.bind] at h
      simp only [hf.ok_frame ds a r1 hfd x, Res.bind]
      exact (hg a).ok_frame r1 b r h x
    | err e => simp [hfd, Res.bind] at h
    | starved => simp [hfd, Res.bind] at h
  ok_consumed := by
    intro ds b r h
    cases hfd : f ds with
    | ok a r1 =>
      simp only [hfd, Res.bind] at h
      obtain ⟨p1, h1⟩ := hf.ok_consumed ds a r1 hfd
      obtain ⟨p2, h2⟩ := (hg a).ok_consumed r1 b r h
      exact ⟨p1 ++ p2, by rw [h1, h2]; simp⟩
    | err e => simp [hfd, Res.bind] at h
    | starved => simp [hfd, Res.bind] at h
  err_frame := by
    intro ds e h x
    cases hfd : f ds with
    | ok a r1 =>
      simp only [hfd, Res.bind] at h
      simp only [hf.ok_frame ds a r1 hfd x, Res.bind]
      exact (hg a).err_frame r1 e h x
    | err e1 =>
      simp only [hfd, Res.bind] at h
      simp only [hf.err_frame ds e1 hfd x, Res.bind]
      exact h
    | starved => simp [hfd, Res.bind] at h
  starved_fail := by
    intro ds h rest
    cases hfd : f ds with
    | ok a r1 =>
      simp only [hfd, Res.bind] at h
      simp only [hf.ok_frame ds a r1 hfd (none :: rest), Res.bind]
      exact (hg a).starved_fail r1 h rest
    | err e => simp [hfd, Res.bind] at h
    | starved =>
      simp only [hf.starved_fail ds hfd rest, Res.bind]

theorem uniform_index_loop_lawful (n max : Nat) : Lawful (uniform_index_loop n max) where
  ok_frame := by
    intro ds
    induction ds with
    | nil => intro a r h; simp [uniform_index_loop] at h
    | cons d ds ih =>
      intro a r h x
      cases d with
      | none => simp [uniform_index_loop] at h
      | some b =>
        by_cases hb : b.val ≥ max
        · rw [uniform_index_loop, if_pos hb] at h
          rw [List.cons_append, uniform_index_loop, if_pos hb]
          exact ih a r h x
        · rw [uniform_index_loop, if_neg hb] at h
          rw [List.cons_append, uniform_index_loop, if_neg hb]
          injection h with h1 h2
          rw [h1, h2]
  ok_consumed := by
    intro ds a r h
    obtain ⟨pre, b, hds, _⟩ := uniform_index_loop_ok h
    exact ⟨pre ++ [b], by rw [hds]; simp⟩
  err_frame := by
    intro ds
    induction ds with
    | nil => intro e h; simp [uniform_index_loop] at h
    | cons d ds ih =>
      intro e h x
      cases d with
      | none => simpa [uniform_index_loop] using h
      | some b =>
        by_cases hb : b.val ≥ max
        · rw [uniform_index_loop, if_pos hb] at h
          rw [List.cons_append, uniform_index_loop, if_pos hb]
          exact ih e h x
        · rw [uniform_index_loop, if_neg hb] at h
          cases h
  starved_fail := by
    intro ds
    induction ds with
    | nil => intro _ rest; simp [uniform_index_loop]
    | cons d ds ih =>
      intro h rest
      cases d with
      | none => simp [uniform_index_loop] at h
      | some b =>
        by_cases hb : b.val ≥ max
        · rw [uniform_index_loop, if_pos hb] at h
          rw [List.cons_append, uniform_index_loop, if_pos hb]
          exact ih h rest
        · rw [uniform_index_loop, if_neg hb] at h
          cases h

theorem uniform_index_lawful (n : Nat) : Lawful (uniform_index n) := by
  by_cases hn : n = 0
  · have : uniform_index n = fun _ => Res.err .invalidDomain := by
      funext ds; simp [uniform_index, hn]
    rw [this]
    exact lawful_throw _
  · have : uniform_index n = uniform_index_loop n (limit n) := by
      funext ds; simp [uniform_index, hn]
    rw [this]
    exact uniform_index_loop_lawful _ _


/-! ## Element access, swap and shuffle -/

theorem swap_some {α : Type} {v v1 : List α} {a b : Nat} (h : swap v a b = some v1) :
    ∃ (ha : a < v.length) (hb : b < v.length), v1 = (v.set a v[b]).set b v[a] := by
  unfold swap at h
  split at h
  · rename_i x y hx hy
    obtain ⟨ha, hxa⟩ := List.getElem?_eq_some_iff.mp hx
    obtain ⟨hb, hyb⟩ := List.getElem?_eq_some_iff.mp hy
    refine ⟨ha, hb, ?_⟩
    rw [hxa, hyb]
    exact (Option.some.inj h).symm
  · cases h

theorem swap_of_lt {α : Type} (v : List α) {a b : Nat} (ha : a < v.length)
    (hb : b < v.length) : swap v a b = some ((v.set a v[b]).set b v[a]) := by
  unfold swap
  rw [List.getElem?_eq_getElem ha, List.getElem?_eq_getElem hb]

theorem swap_perm {α : Type} {v v1 : List α} {a b : Nat} (h : swap v a b = some v1) :
    v1.Perm v := by
  classical
  obtain ⟨ha, hb, rfl⟩ := swap_some h
  rw [List.perm_iff_count]
  intro c
  have hb1 : b < (v.set a v[b]).length := by simpa using hb
  have hget : (v.set a v[b])[b] = v[b] := by
    rw [List.getElem_set]
    split <;> rfl
  rw [List.count_set _ _ _ _ hb1, hget, List.count_set _ _ _ _ ha]
  have hx : (if v[a] == c then 1 else 0) ≤ v.count c := by
    split
    · rename_i hc
      have : v[a] = c := by simpa using hc
      rw [← this]
      exact List.count_pos_iff.mpr (List.getElem_mem ha)
    · exact Nat.zero_le _
  omega

theorem swap_length {α : Type} {v v1 : List α} {a b : Nat} (h : swap v a b = some v1) :
    v1.length = v.length := (swap_perm h).length_eq

theorem secure_shuffle_loop_perm {α : Type} (i : Nat) :
    ∀ (v v1 : List α) (ds rest : List Draw),
      secure_shuffle_loop i v ds = .ok v1 rest → v1.Perm v := by
  induction i with
  | zero =>
    intro v v1 ds rest h
    simp only [secure_shuffle_loop] at h
    injection h with h1 h2
    rw [h1]
  | succ i ih =>
    intro v v1 ds rest h
    rw [secure_shuffle_loop] at h
    split at h
    · cases hu : uniform_index (i + 1) ds with
      | ok j ds1 =>
        simp only [hu, Res.bind] at h
        cases hs : swap v i j with
        | none => simp [hs] at h
        | some v2 =>
          simp only [hs] at h
          exact (ih v2 v1 ds1 rest h).trans (swap_perm hs)
      | err e => simp [hu, Res.bind] at h
      | starved => simp [hu, Res.bind] at h
    · injection h with h1 h2
      rw [h1]

/-- A shuffle that returns was run on a vector of at most 256 elements: its
first iteration calls `uniform_index(v.size())`. -/
theorem secure_shuffle_ok_length_le {α : Type} {v v1 : List α} {ds rest : List Draw}
    (h : secure_shuffle v ds = .ok v1 rest) : v.length ≤ 256 := by
  unfold secure_shuffle at h
  cases hl : v.length with
  | zero => omega
  | succ i =>
    rw [hl, secure_shuffle_loop] at h
    split at h
    · cases hu : uniform_index (i + 1) ds with
      | ok j ds1 => exact (uniform_index_ok hu).2.1
      | err e => simp [hu, Res.bind] at h
      | starved => simp [hu, Res.bind] at h
    · omega

theorem secure_shuffle_loop_lawful {α : Type} (i : Nat) :
    ∀ v : List α, Lawful (secure_shuffle_loop i v) := by
  induction i with
  | zero => intro v; exact lawful_pure v
  | succ i ih =>
    intro v
    by_cases hi : i + 1 > 1
    · have : secure_shuffle_loop (i + 1) v = fun ds =>
          (uniform_index (i + 1) ds).bind fun j ds1 =>
            match swap v i j with
            | none => .err .outOfRange
            | some v1 => secure_shuffle_loop i v1 ds1 := by
        funext ds; rw [secure_shuffle_loop, if_pos hi]
      rw [this]
      refine lawful_bind (uniform_index_lawful _) ?_
      intro j
      cases swap v i j with
      | none => exact lawful_throw _
      | some v1 => exact ih v1
    · have : secure_shuffle_loop (i + 1) v = fun ds => Res.ok v ds := by
        funext ds; rw [secure_shuffle_loop, if_neg hi]
      rw [this]
      exact lawful_pure v

theorem secure_shuffle_lawful {α : Type} (v : List α) : Lawful (secure_shuffle v) :=
  secure_shuffle_loop_lawful v.length v


/-! ## Building the buffer -/

theorem push_random_ok {cls out out1 : List Char} {ds rest : List Draw}
    (h : push_random cls out ds = .ok out1 rest) :
    cls.length ≤ 256 ∧ ∃ ch, ch ∈ cls ∧ out1 = out ++ [ch] := by
  unfold push_random at h
  cases hu : uniform_index cls.length ds with
  | ok i ds1 =>
    simp only [hu, Res.bind] at h
    cases hc : cls[i]? with
    | none => simp [hc] at h
    | some ch =>
      simp only [hc] at h
      injection h with h1 h2
      exact ⟨(uniform_index_ok hu).2.1, ch, List.getElem?_mem hc, h1.symm⟩
  | err e => simp [hu, Res.bind] at h
  | starved => simp [hu, Res.bind] at h

theorem push_random_lawful (cls out : List Char) : Lawful (push_random cls out) := by
  unfold push_random
  refine lawful_bind (uniform_index_lawful _) ?_
  intro i
  cases cls[i]? with
  | none => exact lawful_throw _
  | some ch => exact lawful_pure _

/-- The minimum draws append, for each class in order, two characters of that
class. -/
theorem draw_minimums_ok (cs : List (List Char)) :
    ∀ (out out1 : List Char) (ds rest : List Draw),
      draw_minimums cs out ds = .ok out1 rest →
      ∃ picks, out1 = out ++ picks ∧ picks.length = 2 * cs.length ∧
        (∀ ch ∈ picks, ch ∈ cs.flatten) ∧
        (∀ cls ∈ cs, cls.length ≤ 256) ∧
        ∀ cls ∈ cs, ∀ p : Char → Bool, (∀ ch ∈ cls, p ch = true) → 2 ≤ picks.countP p := by
  induction cs with
  | nil =>
    intro out out1 ds rest h
    simp only [draw_minimums] at h
    injection h with h1 h2
    exact ⟨[], by simp [h1], by simp, by simp, by simp, by simp⟩
  | cons c cs ih =>
    intro out out1 ds rest h
    rw [draw_minimums] at h
    cases h1 : push_random c out ds with
    | ok o1 d1 =>
      simp only [h1, Res.bind] at h
      cases h2 : push_random c o1 d1 with
      | ok o2 d2 =>
        simp only [h2, Res.bind] at h
        obtain ⟨hc256, a, ha, rfl⟩ := push_random_ok h1
        obtain ⟨_, b, hb, rfl⟩ := push_random_ok h2
        obtain ⟨picks, rfl, hlen, hmem, hsz, hcnt⟩ := ih _ _ _ _ h
        refine ⟨a :: b :: picks, by simp, by simp [hlen]; omega, ?_, ?_, ?_⟩
        · intro ch hch
          simp only [List.mem_cons] at hch
          simp only [List.flatten_cons, List.mem_append]
          rcases hch with rfl | rfl | hch
          · exact Or.inl ha
          · exact Or.inl hb
          · exact Or.inr (hmem ch hch)
        · intro cls hcls
          rcases List.mem_cons.mp hcls with rfl | hcls
          · exact hc256
          · exact hsz cls hcls
        · intro cls hcls p hp
          rcases List.mem_cons.mp hcls with rfl | hcls
          · simp [List.countP_cons, hp a ha, hp b hb]
          · have := hcnt cls hcls p hp
            simp only [List.countP_cons]
            omega
      | err e => simp [h2, Res.bind] at h
      | starved => simp [h2, Res.bind] at h
    | err e => simp [h1, Res.bind] at h
    | starved => simp [h1, Res.bind] at h

theorem draw_minimums_lawful (cs : List (List Char)) :
    ∀ out, Lawful (draw_minimums cs out) := by
  induction cs with
  | nil => intro out; exact lawful_pure out
  | cons c cs ih =>
    intro out
    have : draw_minimums (c :: cs) out = fun ds =>
        (push_random c out ds).bind fun out1 ds1 =>
          (push_random c out1 ds1).bind fun out2 ds2 => draw_minimums cs out2 ds2 := by
      funext ds; rw [draw_minimums]
    rw [this]
    exact lawful_bind (push_random_lawful _ _) fun out1 =>
      lawful_bind (push_random_lawful _ _) fun out2 => ih out2

/-- The fill loop appends characters of `all` only, and when it is given
enough iterations it stops at exactly `length` characters. -/
theorem fill_ok (k : Nat) (all : List Char) (length : Nat) :
    ∀ (out out1 : List Char) (ds rest : List Draw),
      fill k all length out ds = .ok out1 rest →
      ∃ extra, out1 = out ++ extra ∧ (∀ ch ∈ extra, ch ∈ all) ∧
        (extra ≠ [] → all.length ≤ 256) ∧
        (out.length ≤ length → length ≤ out.length + k → out1.length = length) := by
  induction k with
  | zero =>
    intro out out1 ds rest h
    simp only [fill] at h
    injection h with h1 h2
    exact ⟨[], by simp [h1], by simp, by simp, by intro _ _; rw [← h1]; omega⟩
  | succ k ih =>
    intro out out1 ds rest h
    rw [fill] at h
    split at h
    · rename_i hlt
      cases h1 : push_random all out ds with
      | ok o1 d1 =>
        simp only [h1, Res.bind] at h
        obtain ⟨h256, a, ha, rfl⟩ := push_random_ok h1
        obtain ⟨extra, rfl, hmem, _, hlen⟩ := ih _ _ _ _ h
        refine ⟨a :: extra, by simp, ?_, fun _ => h256, ?_⟩
        · intro ch hch
          rcases List.mem_cons.mp hch with rfl | hch
          · exact ha
          · exact hmem ch hch
        · intro _ h2
          apply hlen
          · simp; omega
          · simp; omega
      | err e => simp [h1, Res.bind] at h
      | starved => simp [h1, Res.bind] at h
    · rename_i hge
      injection h with h1 h2
      exact ⟨[], by simp [h1], by simp, by simp, by intro _ _; rw [← h1]; omega⟩

theorem fill_lawful (k : Nat) (all : List Char) (length : Nat) :
    ∀ out, Lawful (fill k all length out) := by
  induction k with
  | zero => intro out; exact lawful_pure out
  | succ k ih =>
    intro out
    by_cases hlt : out.length < length
    · have : fill (k + 1) all length out = fun ds =>
          (push_random all out ds).bind fun out1 ds1 => fill k all length out1 ds1 := by
        funext ds; rw [fill, if_pos hlt]
      rw [this]
      exact lawful_bind (push_random_lawful _ _) fun out1 => ih out1
    · have : fill (k + 1) all length out = fun ds => Res.ok out ds := by
        funext ds; rw [fill, if_neg hlt]
      rw [this]
      exact lawful_pure out

theorem cats_length (ov : List Char) (ns : Bool) :
    (cats ov ns).length = if ns then 3 else 4 := by
  cases ns <;> simp [cats]

theorem generate_password_lawful (length : Nat) (ov : List Char) (ns : Bool) :
    Lawful (generate_password length ov ns) := by
  by_cases hl : length < 16
  · have : generate_password length ov ns = fun _ => Res.err .invalidLength := by
      funext ds; simp [generate_password, hl]
    rw [this]
    exact lawful_throw _
  · have : generate_password length ov ns = fun ds =>
        (draw_minimums (cats ov ns) [] ds).bind fun out ds1 =>
          (fill (length - out.length) (cats ov ns).flatten length out ds1).bind
            fun out1 ds2 => secure_shuffle out1 ds2 := by
      funext ds; simp [generate_password, hl]
    rw [this]
    exact lawful_bind (draw_minimums_lawful _ _) fun out =>
      lawful_bind (fill_lawful _ _ _ _) fun out1 => secure_shuffle_lawful out1

/-- What a returned password is made of: a permutation of the minimum draws
followed by the fill draws. -/
theorem generate_password_ok {length : Nat} {ov : List Char} {ns : Bool}
    {ds rest : List Draw} {pw : List Char}
    (h : generate_password length ov ns ds = .ok pw rest) :
    16 ≤ length ∧ length ≤ 256 ∧
    ∃ picks extra, pw.Perm (picks ++ extra) ∧ (picks ++ extra).length = length ∧
      (∀ ch ∈ picks ++ extra, ch ∈ (cats ov ns).flatten) ∧
      (∀ cls ∈ cats ov ns, cls.length ≤ 256) ∧
      (cats ov ns).flatten.length ≤ 256 ∧
      ∀ cls ∈ cats ov ns, ∀ p : Char → Bool,
        (∀ ch ∈ cls, p ch = true) → 2 ≤ picks.countP p := by
  unfold generate_password at h
  split at h
  · cases h
  · rename_i hl
    simp only at h
    cases h1 : draw_minimums (cats ov ns) [] ds with
    | ok out d1 =>
      simp only [h1, Res.bind] at h
      cases h2 : fill (length - out.length) (cats ov ns).flatten length out d1 with
      | ok out1 d2 =>
        simp only [h2, Res.bind] at h
        obtain ⟨picks, hout, hplen, hpmem, hsz, hcnt⟩ := draw_minimums_ok _ _ _ _ _ h1
        simp only [List.nil_append] at hout
        subst hout
        obtain ⟨extra, rfl, hemem, he256, hlen⟩ := fill_ok _ _ _ _ _ _ _ h2
        have hcl := cats_length ov ns
        have hp8 : out.length ≤ 8 := by
          rw [hplen, hcl]; split <;> omega
        have hlen1 : (out ++ extra).length = length := hlen (by omega) (by omega)
        have hshuf := secure_shuffle_ok_length_le h
        have hne : extra ≠ [] := by
          intro he
          rw [he] at hlen1
          simp at hlen1
          omega
        refine ⟨by omega, by omega, out, extra, secure_shuffle_loop_perm _ _ _ _ _ h,
          hlen1, ?_, hsz, he256 hne, hcnt⟩
        intro ch hch
        rcases List.mem_append.mp hch with hch | hch
        · exact hpmem ch hch
        · exact hemem ch hch
      | err e => simp [h2, Res.bind] at h
      | starved => simp [h2, Res.bind] at h
    | err e => simp [h1, Res.bind] at h
    | starved => simp [h1, Res.bind] at h


/-! ## Termination on fair entropy streams -/

theorem draws_append (s : ByteStream) (m1 m2 : Nat) :
    ∀ p, draws s p (m1 + m2) = draws s p m1 ++ draws s (p + m1) m2 := by
  induction m1 with
  | zero => intro p; simp [draws]
  | succ m1 ih =>
    intro p
    have : m1 + 1 + m2 = (m1 + m2) + 1 := by omega
    rw [this, draws, draws, ih (p + 1)]
    have : p + 1 + m1 = p + (m1 + 1) := by omega
    rw [this, List.cons_append]

theorem completes_bind {α β : Type} {f : List Draw → Res α}
    {g : α → List Draw → Res β} {s : ByteStream} {p : Nat} {Q1 : α → Prop}
    {Q2 : β → Prop} (hf : Lawful f) (h1 : Completes f s p Q1)
    (h2 : ∀ a, Q1 a → ∀ q, Completes (g a) s q Q2) :
    Completes (fun ds => (f ds).bind g) s p Q2 := by
  obtain ⟨m1, a, hfa, hq1⟩ := h1
  obtain ⟨m2, b, hgb, hq2⟩ := h2 a hq1 (p + m1)
  refine ⟨m1 + m2, b, ?_, hq2⟩
  have := hf.ok_frame _ _ _ hfa (draws s (p + m1) m2)
  simp only [draws_append, this, Res.bind, List.nil_append]
  exact hgb

theorem completes_pure {α : Type} (a : α) (s : ByteStream) (p : Nat) {Q : α → Prop}
    (h : Q a) : Completes (fun ds => Res.ok a ds) s p Q :=
  ⟨0, a, rfl, h⟩

/-- The rejection loop returns as soon as the stream delivers a byte below the
threshold. -/
theorem uniform_index_loop_completes {n max : Nat} (hn : 0 < n) (s : ByteStream) :
    ∀ (d p : Nat), (s (p + d)).val < max →
      Completes (uniform_index_loop n max) s p (fun i => i < n) := by
  intro d
  induction d with
  | zero =>
    intro p h
    refine ⟨1, (s p).val % n, ?_, Nat.mod_lt _ hn⟩
    have h1 : ¬ (s p).val ≥ max := by simpa using h
    simp [draws, uniform_index_loop, h1]
  | succ d ih =>
    intro p h
    by_cases hb : (s p).val ≥ max
    · have h1 : (s (p + 1 + d)).val < max := by
        have : p + 1 + d = p + (d + 1) := by omega
        rw [this]; exact h
      obtain ⟨m, i, hi, hlt⟩ := ih (p + 1) h1
      refine ⟨m + 1, i, ?_, hlt⟩
      rw [draws, uniform_index_loop, if_pos hb]
      exact hi
    · refine ⟨1, (s p).val % n, ?_, Nat.mod_lt _ hn⟩
      simp [draws, uniform_index_loop, hb]

theorem uniform_index_completes {n : Nat} (h1 : 1 ≤ n) (h2 : n ≤ 256)
    {s : ByteStream} (hs : Fair s) (p : Nat) :
    Completes (uniform_index n) s p (fun i => i < n) := by
  obtain ⟨i, hi, hb⟩ := hs 0 p
  have hlim := limit_pos h1 h2
  have hlt : (s (p + (i - p))).val < limit n := by
    have : p + (i - p) = i := by omega
    rw [this, hb]; exact hlim
  have : uniform_index n = uniform_index_loop n (limit n) := by
    funext ds
    have : n ≠ 0 := by omega
    simp [uniform_index, this]
  rw [this]
  exact uniform_index_loop_completes (by omega) s (i - p) p hlt

theorem push_random_completes {cls : List Char} (h1 : 1 ≤ cls.length)
    (h2 : cls.length ≤ 256) (out : List Char) {s : ByteStream} (hs : Fair s) (p : Nat) :
    Completes (push_random cls out) s p (fun o => o.length = out.length + 1) := by
  unfold push_random
  refine completes_bind (uniform_index_lawful _) (uniform_index_completes h1 h2 hs p) ?_
  intro i hi q
  rw [List.getElem?_eq_getElem hi]
  exact completes_pure _ s q (by simp)

theorem draw_minimums_completes (cs : List (List Char))
    (hcs : ∀ cls ∈ cs, 1 ≤ cls.length ∧ cls.length ≤ 256) {s : ByteStream} (hs : Fair s) :
    ∀ (out : List Char) (p : Nat),
      Completes (draw_minimums cs out) s p (fun o => o.length = out.length + 2 * cs.length) := by
  induction cs with
  | nil => intro out p; exact completes_pure _ s p (by simp)
  | cons c cs ih =>
    intro out p
    have hc := hcs c (List.mem_cons_self _ _)
    have : draw_minimums (c :: cs) out = fun ds =>
        (push_random c out ds).bind fun out1 ds1 =>
          (push_random c out1 ds1).bind fun out2 ds2 => draw_minimums cs out2 ds2 := by
      funext ds; rw [draw_minimums]
    rw [this]
    refine completes_bind (push_random_lawful _ _)
      (push_random_completes hc.1 hc.2 out hs p) ?_
    intro o1 ho1 q
    refine completes_bind (push_random_lawful _ _)
      (push_random_completes hc.1 hc.2 o1 hs q) ?_
    intro o2 ho2 q2
    obtain ⟨m, o, ho, hlen⟩ := ih (fun cls h => hcs cls (List.mem_cons_of_mem _ h)) o2 q2
    refine ⟨m, o, ho, ?_⟩
    simp only [List.length_cons] at *
    omega

theorem fill_completes (k : Nat) {all : List Char} (h1 : 1 ≤ all.length)
    (h2 : all.length ≤ 256) (length : Nat) {s : ByteStream} (hs : Fair s) :
    ∀ (out : List Char) (p : Nat),
      Completes (fill k all length out) s p
        (fun o => out.length ≤ length → length ≤ out.length + k → o.length = length) := by
  induction k with
  | zero =>
    intro out p
    exact completes_pure _ s p (by intro _ _; omega)
  | succ k ih =>
    intro out p
    by_cases hlt : out.length < length
    · have : fill (k + 1) all length out = fun ds =>
          (push_random all out ds).bind fun out1 ds1 => fill k all length out1 ds1 := by
        funext ds; rw [fill, if_pos hlt]
      rw [this]
      refine completes_bind (push_random_lawful _ _)
        (push_random_completes h1 h2 out hs p) ?_
      intro o1 ho1 q
      obtain ⟨m, o, ho, hlen⟩ := ih o1 q
      refine ⟨m, o, ho, ?_⟩
      intro _ hk
      exact hlen (by omega) (by omega)
    · have : fill (k + 1) all length out = fun ds => Res.ok out ds := by
        funext ds; rw [fill, if_neg hlt]
      rw [this]
      exact completes_pure _ s p (by intro _ _; omega)

theorem secure_shuffle_loop_completes {α : Type} {s : ByteStream} (hs : Fair s) (i : Nat) :
    ∀ (v : List α) (p : Nat), i ≤ v.length → i ≤ 256 →
      Completes (secure_shuffle_loop i v) s p (fun v1 => v1.length = v.length) := by
  induction i with
  | zero => intro v p _ _; exact completes_pure _ s p rfl
  | succ i ih =>
    intro v p hv h256
    by_cases hi : i + 1 > 1
    · have : secure_shuffle_loop (i + 1) v = fun ds =>
          (uniform_index (i + 1) ds).bind fun j ds1 =>
            match swap v i j with
            | none => .err .outOfRange
            | some v1 => secure_shuffle_loop i v1 ds1 := by
        funext ds; rw [secure_shuffle_loop, if_pos hi]
      rw [this]
      refine completes_bind (uniform_index_lawful _)
        (uniform_index_completes (by omega) h256 hs p) ?_
      intro j hj q
      have hsw := swap_of_lt v (show i < v.length by omega) (show j < v.length by omega)
      have hlen := swap_length hsw
      simp only [hsw]
      obtain ⟨m, v1, hv1, hl⟩ :=
        ih ((v.set i v[j]).set j v[i]) q (by rw [hlen]; omega) (by omega)
      exact ⟨m, v1, hv1, hl.trans hlen⟩
    · have : secure_shuffle_loop (i + 1) v = fun ds => Res.ok v ds := by
        funext ds; rw [secure_shuffle_loop, if_neg hi]
      rw [this]
      exact completes_pure _ s p rfl

theorem S_length_pos (ov : List Char) : 1 ≤ (S ov).length := by
  unfold S
  split
  · decide
  · rename_i h
    cases ov with
    | nil => simp at h
    | cons a t => simp

theorem cats_flatten_length (ov : List Char) (ns : Bool) :
    (cats ov ns).flatten.length = if ns then 62 else 62 + (S ov).length := by
  have hU : U.length = 26 := rfl
  have hL : L.length = 26 := rfl
  have hD : D.length = 10 := rfl
  cases ns
  · simp only [cats, Bool.not_false, if_true, List.cons_append, List.nil_append,
      List.flatten_cons, List.flatten_nil, List.length_append, List.length_nil,
      Bool.false_eq_true, if_false]
    omega
  · simp only [cats, Bool.not_true, Bool.false_eq_true, if_false, List.append_nil,
      List.flatten_cons, List.flatten_nil, List.length_append, List.length_nil, if_true]
    omega

/-- On a fair never-failing stream a generation whose sampler arguments stay
within `1..256` returns, and the password has the requested length. -/
theorem generate_password_completes {length : Nat} (h16 : 16 ≤ length)
    (h256 : length ≤ 256) (ov : List Char) (ns : Bool)
    (hS : ns = true ∨ (S ov).length ≤ 194) {s : ByteStream} (hs : Fair s) (p : Nat) :
    Completes (generate_password length ov ns) s p (fun pw => pw.length = length) := by
  have hU : U.length = 26 := rfl
  have hL : L.length = 26 := rfl
  have hD : D.length = 10 := rfl
  have hSpos := S_length_pos ov
  have hcs : ∀ cls ∈ cats ov ns, 1 ≤ cls.length ∧ cls.length ≤ 256 := by
    intro cls hcls
    cases ns with
    | true =>
      simp only [cats, Bool.not_true, Bool.false_eq_true, if_false, List.append_nil,
        List.mem_cons, List.mem_singleton, List.not_mem_nil, or_false] at hcls
      rcases hcls with rfl | rfl | rfl <;> omega
    | false =>
      have hS1 : (S ov).length ≤ 194 := by simpa using hS
      simp only [cats, Bool.not_false, if_true, List.cons_append, List.nil_append,
        List.mem_cons, List.mem_singleton, List.not_mem_nil, or_false] at hcls
      rcases hcls with rfl | rfl | rfl | rfl <;> omega
  have hall := cats_flatten_length ov ns
  have hall1 : 1 ≤ (cats ov ns).flatten.length ∧ (cats ov ns).flatten.length ≤ 256 := by
    rw [hall]
    cases ns with
    | true => simp
    | false =>
      have hS1 : (S ov).length ≤ 194 := by simpa using hS
      simp only [Bool.false_eq_true, if_false]
      omega
  have hcl := cats_length ov ns
  have hnl : ¬ length < 16 := by omega
  have : generate_password length ov ns = fun ds =>
      (draw_minimums (cats ov ns) [] ds).bind fun out ds1 =>
        (fill (length - out.length) (cats ov ns).flatten length out ds1).bind
          fun out1 ds2 => secure_shuffle out1 ds2 := by
    funext ds; simp [generate_password, hnl]
  rw [this]
  refine completes_bind (draw_minimums_lawful _ _)
    (draw_minimums_completes _ hcs hs [] p) ?_
  intro out hout q
  have hout8 : out.length ≤ 8 := by
    rw [hout, hcl]; split <;> simp
  refine completes_bind (fill_lawful _ _ _ _)
    (fill_completes _ hall1.1 hall1.2 length hs out q) ?_
  intro out1 hout1 q1
  have hlen : out1.length = length := hout1 (by omega) (by omega)
  obtain ⟨m, v1, hv1, hl⟩ :=
    secure_shuffle_loop_completes hs out1.length out1 q1 (le_refl _) (by omega)
  exact ⟨m, v1, hv1, hl.trans hlen⟩


/-! ## No exception while the entropy source delivers -/

theorem rest_of_map_some {pre p1 : List Byte} {r : List Draw}
    (h : pre.map some = p1.map some ++ r) : ∃ p2 : List Byte, r = p2.map some := by
  refine ⟨pre.drop p1.length, ?_⟩
  have h1 := congrArg (List.drop p1.length) h
  rw [← List.map_drop] at h1
  rw [h1]
  have : p1.length = (p1.map (some : Byte → Draw)).length := by simp
  rw [this, List.drop_left]

theorem draws_eq_map_some (s : ByteStream) (m : Nat) :
    ∀ p, ∃ pre : List Byte, draws s p m = pre.map some := by
  induction m with
  | zero => intro p; exact ⟨[], rfl⟩
  | succ m ih =>
    intro p
    obtain ⟨pre, hpre⟩ := ih (p + 1)
    exact ⟨s p :: pre, by simp [draws, hpre]⟩

theorem safe_pure {α : Type} (a : α) {Q : α → Prop} (h : Q a) :
    Safe (fun ds => Res.ok a ds) Q := by
  intro pre
  refine ⟨fun e he => (by cases he), ?_⟩
  intro a1 r h1
  injection h1 with h2 h3
  rw [← h2]; exact h

theorem safe_bind {α β : Type} {f : List Draw → Res α} {g : α → List Draw → Res β}
    {Q1 : α → Prop} {Q2 : β → Prop} (hl : Lawful f) (hf : Safe f Q1)
    (hg : ∀ a, Q1 a → Safe (g a) Q2) : Safe (fun ds => (f ds).bind g) Q2 := by
  intro pre
  cases hfd : f (pre.map some) with
  | ok a r =>
    obtain ⟨p1, hp1⟩ := hl.ok_consumed _ _ _ hfd
    obtain ⟨p2, rfl⟩ := rest_of_map_some hp1
    have hq := (hf pre).2 a _ hfd
    simp only [hfd, Res.bind]
    exact hg a hq p2
  | err e => exact absurd hfd ((hf pre).1 e)
  | starved =>
    simp only [hfd, Res.bind]
    exact ⟨fun e he => (by cases he), fun a r h => (by cases h)⟩

theorem uniform_index_loop_no_err (n max : Nat) (pre : List Byte) (e : Error) :
    uniform_index_loop n max (pre.map some) ≠ .err e := by
  induction pre with
  | nil => simp [uniform_index_loop]
  | cons b pre ih =>
    by_cases hb : b.val ≥ max
    · rw [List.map_cons, uniform_index_loop, if_pos hb]; exact ih
    · rw [List.map_cons, uniform_index_loop, if_neg hb]; simp

theorem uniform_index_safe {n : Nat} (h1 : 1 ≤ n) :
    Safe (uniform_index n) (fun i => i < n) := by
  intro pre
  refine ⟨?_, fun a r h => (uniform_index_ok h).2.2.1⟩
  intro e
  have hn : n ≠ 0 := by omega
  simp only [uniform_index, if_neg hn]
  exact uniform_index_loop_no_err _ _ _ _

theorem push_random_safe {cls : List Char} (h1 : 1 ≤ cls.length) (out : List Char) :
    Safe (push_random cls out) (fun o => o.length = out.length + 1) := by
  unfold push_random
  refine safe_bind (uniform_index_lawful _) (uniform_index_safe h1) ?_
  intro i hi
  rw [List.getElem?_eq_getElem hi]
  exact safe_pure _ (by simp)

theorem draw_minimums_safe (cs : List (List Char)) (hcs : ∀ cls ∈ cs, 1 ≤ cls.length) :
    ∀ out : List Char,
      Safe (draw_minimums cs out) (fun o => o.length = out.length + 2 * cs.length) := by
  induction cs with
  | nil => intro out; exact safe_pure _ (by simp)
  | cons c cs ih =>
    intro out
    have hc := hcs c (List.mem_cons_self _ _)
    have : draw_minimums (c :: cs) out = fun ds =>
        (push_random c out ds).bind fun out1 ds1 =>
          (push_random c out1 ds1).bind fun out2 ds2 => draw_minimums cs out2 ds2 := by
      funext ds; rw [draw_minimums]
    rw [this]
    refine safe_bind (push_random_lawful _ _) (push_random_safe hc out) ?_
    intro o1 ho1
    refine safe_bind (push_random_lawful _ _) (push_random_safe hc o1) ?_
    intro o2 ho2 pre
    obtain ⟨hne, hq⟩ := ih (fun cls h => hcs cls (List.mem_cons_of_mem _ h)) o2 pre
    refine ⟨hne, fun a r h => ?_⟩
    have := hq a r h
    simp only [List.length_cons] at *
    omega

theorem fill_safe (k : Nat) {all : List Char} (h1 : 1 ≤ all.length) (length : Nat) :
    ∀ out : List Char,
      Safe (fill k all length out)
        (fun o => out.length ≤ length → length ≤ out.length + k → o.length = length) := by
  induction k with
  | zero => intro out; exact safe_pure _ (by intro _ _; omega)
  | succ k ih =>
    intro out
    by_cases hlt : out.length < length
    · have : fill (k + 1) all length out = fun ds =>
          (push_random all out ds).bind fun out1 ds1 => fill k all length out1 ds1 := by
        funext ds; rw [fill, if_pos hlt]
      rw [this]
      refine safe_bind (push_random_lawful _ _) (push_random_safe h1 out) ?_
      intro o1 ho1 pre
      obtain ⟨hne, hq⟩ := ih o1 pre
      refine ⟨hne, fun a r h _ _ => ?_⟩
      exact hq a r h (by omega) (by omega)
    · have : fill (k + 1) all length out = fun ds => Res.ok out ds := by
        funext ds; rw [fill, if_neg hlt]
      rw [this]
      exact safe_pure _ (by intro _ _; omega)

theorem secure_shuffle_loop_safe {α : Type} (i : Nat) :
    ∀ v : List α, i ≤ v.length →
      Safe (secure_shuffle_loop i v) (fun v1 => v1.length = v.length) := by
  induction i with
  | zero => intro v _; exact safe_pure _ rfl
  | succ i ih =>
    intro v hv
    by_cases hi : i + 1 > 1
    · have : secure_shuffle_loop (i + 1) v = fun ds =>
          (uniform_index (i + 1) ds).bind fun j ds1 =>
            match swap v i j with
            | none => .err .outOfRange
            | some v1 => secure_shuffle_loop i v1 ds1 := by
        funext ds; rw [secure_shuffle_loop, if_pos hi]
      rw [this]
      refine safe_bind (uniform_index_lawful _) (uniform_index_safe (by omega)) ?_
      intro j hj pre
      have hsw := swap_of_lt v (show i < v.length by omega) (show j < v.length by omega)
      have hlen := swap_length hsw
      simp only [hsw]
      obtain ⟨hne, hq⟩ := ih ((v.set i v[j]).set j v[i]) (by rw [hlen]; omega) pre
      exact ⟨hne, fun a r h => (hq a r h).trans hlen⟩
    · have : secure_shuffle_loop (i + 1) v = fun ds => Res.ok v ds := by
        funext ds; rw [secure_shuffle_loop, if_neg hi]
      rw [this]
      exact safe_pure _ rfl

/-- While the entropy source delivers, a generation with `length ≥ 16` throws
nothing: no sampler argument is 0 and no element access is out of range. -/
theorem generate_password_safe {length : Nat} (h16 : 16 ≤ length) (ov : List Char)
    (ns : Bool) : Safe (generate_password length ov ns) (fun pw => pw.length = length) := by
  have hSpos := S_length_pos ov
  have hcs : ∀ cls ∈ cats ov ns, 1 ≤ cls.length := by
    intro cls hcls
    have hU : U.length = 26 := rfl
    have hL : L.length = 26 := rfl
    have hD : D.length = 10 := rfl
    cases ns with
    | true =>
      simp only [cats, Bool.not_true, Bool.false_eq_true, if_false, List.append_nil,
        List.mem_cons, List.mem_singleton, List.not_mem_nil, or_false] at hcls
      rcases hcls with rfl | rfl | rfl <;> omega
    | false =>
      simp only [cats, Bool.not_false, if_true, List.cons_append, List.nil_append,
        List.mem_cons, List.mem_singleton, List.not_mem_nil, or_false] at hcls
      rcases hcls with rfl | rfl | rfl | rfl <;> omega
  have hall : 1 ≤ (cats ov ns).flatten.length := by
    rw [cats_flatten_length]; split <;> omega
  have hcl := cats_length ov ns
  have hnl : ¬ length < 16 := by omega
  have : generate_password length ov ns = fun ds =>
      (draw_minimums (cats ov ns) [] ds).bind fun out ds1 =>
        (fill (length - out.length) (cats ov ns).flatten length out ds1).bind
          fun out1 ds2 => secure_shuffle out1 ds2 := by
    funext ds; simp [generate_password, hnl]
  rw [this]
  refine safe_bind (draw_minimums_lawful _ _) (draw_minimums_safe _ hcs []) ?_
  intro out hout
  have hout8 : out.length ≤ 8 := by
    rw [hout, hcl]; split <;> simp
  refine safe_bind (fill_lawful _ _ _ _) (fill_safe _ hall length out) ?_
  intro out1 hout1 pre
  have hlen : out1.length = length := hout1 (by omega) (by omega)
  obtain ⟨hne, hq⟩ := secure_shuffle_loop_safe out1.length out1 (le_refl _) pre
  exact ⟨hne, fun a r h => (hq a r h).trans hlen⟩

/-! ## Counting the accepted bytes -/

/-- The bytes that a single draw of `uniform_index(n)` accepts and maps to
`k`: one for each multiple of `n` below the threshold. -/
theorem card_accepted_to (n : Nat) (h1 : 1 ≤ n) (k : Nat) (hk : k < n) :
    (Finset.univ.filter (fun b : Byte => b.val < limit n ∧ b.val % n = k)).card =
      256 / n := by
  have hle : n * (256 / n) ≤ 256 := Nat.mul_div_le 256 n
  rw [← Finset.card_range (256 / n)]
  refine Finset.card_bij (fun b _ => b.val / n) ?_ ?_ ?_
  · intro b hb
    simp only [Finset.mem_filter, Finset.mem_univ, true_and] at hb
    rw [limit_eq_mul] at hb
    exact Finset.mem_range.mpr (Nat.div_lt_of_lt_mul hb.1)
  · intro a ha b hb hab
    simp only [Finset.mem_filter, Finset.mem_univ, true_and] at ha hb
    apply Fin.ext
    have e1 := Nat.div_add_mod a.val n
    have e2 := Nat.div_add_mod b.val n
    simp only at hab
    rw [ha.2, hab] at e1
    rw [hb.2] at e2
    omega
  · intro q hq
    have hq1 : q + 1 ≤ 256 / n := Finset.mem_range.mp hq
    have hmul : n * (q + 1) ≤ n * (256 / n) := Nat.mul_le_mul_left n hq1
    have hexp : n * (q + 1) = n * q + n := by ring
    have hlt : n * q + k < n * (256 / n) := by omega
    refine ⟨⟨n * q + k, by omega⟩, ?_, ?_⟩
    · simp only [Finset.mem_filter, Finset.mem_univ, true_and]
      refine ⟨by rw [limit_eq_mul]; exact hlt, ?_⟩
      rw [Nat.mul_add_mod]
      exact Nat.mod_eq_of_lt hk
    · simp only
      rw [Nat.mul_add_div (by omega), Nat.div_eq_of_lt hk]
      rfl

/-- The number of bytes a draw accepts is the threshold. -/
theorem card_accepted (n : Nat) :
    (Finset.univ.filter (fun b : Byte => b.val < limit n)).card = limit n := by
  have hle := limit_le n
  refine (Finset.card_bij (fun b _ => b.val) ?_ ?_ ?_).trans (Finset.card_range (limit n))
  · intro b hb
    simp only [Finset.mem_filter, Finset.mem_univ, true_and] at hb
    exact Finset.mem_range.mpr hb
  · intro a _ b _ hab
    exact Fin.ext hab
  · intro q hq
    have hq1 : q < limit n := Finset.mem_range.mp hq
    exact ⟨⟨q, by omega⟩, by simp [hq1], rfl⟩

/-! ## CSV escaping -/

theorem needs_quotes_iff (s : List Char) :
    needs_quotes s = true ↔ ∃ c ∈ s, c = ',' ∨ c = '"' ∨ c = '\n' ∨ c = '\r' := by
  induction s with
  | nil => simp [needs_quotes]
  | cons a s ih =>
    by_cases ha : a = ',' ∨ a = '"' ∨ a = '\n' ∨ a = '\r'
    · simp only [needs_quotes, if_pos ha, true_iff]
      exact ⟨a, List.mem_cons_self _ _, ha⟩
    · simp only [needs_quotes, if_neg ha, ih, List.mem_cons]
      constructor
      · rintro ⟨c, hc, h⟩; exact ⟨c, Or.inr hc, h⟩
      · rintro ⟨c, hc | hc, h⟩
        · subst hc; exact absurd h ha
        · exact ⟨c, hc, h⟩

theorem foldl_append_eq {α β : Type} (f : α → List β) (s : List α) :
    ∀ init : List β, s.foldl (fun acc c => acc ++ f c) init = init ++ s.flatMap f := by
  induction s with
  | nil => intro init; simp
  | cons a s ih => intro init; simp [ih]

/-! ## Facts about the alphabets and the sample stream -/

theorem fair_counter : Fair counter := by
  intro b N
  refine ⟨b.val + 256 * N, by omega, ?_⟩
  apply Fin.ext
  show (b.val + 256 * N) % 256 = b.val
  have := b.isLt
  omega

theorem U_isUpper : ∀ ch ∈ U, ch.isUpper = true := by decide

theorem L_isLower : ∀ ch ∈ L, ch.isLower = true := by decide

theorem D_isDigit : ∀ ch ∈ D, ch.isDigit = true := by decide

theorem mem_cats_base (ov : List Char) (ns : Bool) :
    U ∈ cats ov ns ∧ L ∈ cats ov ns ∧ D ∈ cats ov ns := by
  simp [cats]

theorem mem_cats_flatten {ov : List Char} {ns : Bool} {ch : Char}
    (h : ch ∈ (cats ov ns).flatten) :
    ch ∈ U ∨ ch ∈ L ∨ ch ∈ D ∨ (ns = false ∧ ch ∈ S ov) := by
  cases ns with
  | true =>
    simp only [cats, Bool.not_true, Bool.false_eq_true, if_false, List.append_nil,
      List.flatten_cons, List.flatten_nil, List.mem_append, List.not_mem_nil, or_false] at h
    tauto
  | false =>
    simp only [cats, Bool.not_false, if_true, List.cons_append, List.nil_append,
      List.flatten_cons, List.flatten_nil, List.mem_append, List.not_mem_nil, or_false] at h
    tauto

/-! ## Properties of the specification -/

/-- C1 (the code at the failing input): with length 300, default specials and
specials enabled, `generate_password` returns no password whatever the entropy
source delivers and however many draws it is given: the shuffle's first call
is `uniform_index(300)`, whose threshold is 0, so every byte is rejected. On a
never-failing stream the generation is still drawing after any number of
draws. -/
theorem generate_password_300_never_returns :
    (∀ (ds rest : List Draw) (pw : List Char),
      generate_password 300 [] false ds ≠ .ok pw rest) ∧
    (∀ (s : ByteStream) (m : Nat),
      generate_password 300 [] false (draws s 0 m) = .starved) := by
  have hno : ∀ (ds rest : List Draw) (pw : List Char),
      generate_password 300 [] false ds ≠ .ok pw rest := by
    intro ds rest pw h
    have := (generate_password_ok h).2.1
    omega
  refine ⟨hno, ?_⟩
  intro s m
  obtain ⟨pre, hpre⟩ := draws_eq_map_some s m 0
  rw [hpre]
  cases hr : generate_password 300 [] false (pre.map some) with
  | ok pw rest => exact absurd hr (hno _ _ _)
  | err e => exact absurd hr ((generate_password_safe (by omega) [] false pre).1 e)
  | starved => rfl

/-- C2: a returned password has at least two uppercase letters, two lowercase
letters and two digits, and, unless specials are disabled, at least two
characters of the special alphabet in use (the override if non-empty, else the
default set). -/
theorem generate_password_class_minimums (length : Nat) (ov : List Char) (ns : Bool)
    (ds rest : List Draw) (pw : List Char) (_hlen : 16 ≤ length)
    (h : generate_password length ov ns ds = .ok pw rest) :
    2 ≤ pw.countP Char.isUpper ∧ 2 ≤ pw.countP Char.isLower ∧
      2 ≤ pw.countP Char.isDigit ∧
      (ns = false → 2 ≤ pw.countP (fun ch => decide (ch ∈ S ov))) := by
  obtain ⟨_, _, picks, extra, hperm, _, _, _, _, hcnt⟩ := generate_password_ok h
  obtain ⟨hU, hL, hD⟩ := mem_cats_base ov ns
  have key : ∀ cls ∈ cats ov ns, ∀ p : Char → Bool, (∀ ch ∈ cls, p ch = true) →
      2 ≤ pw.countP p := by
    intro cls hcls p hp
    rw [hperm.countP_eq, List.countP_append]
    have := hcnt cls hcls p hp
    omega
  refine ⟨key U hU _ U_isUpper, key L hL _ L_isLower, key D hD _ D_isDigit, ?_⟩
  intro hns
  subst hns
  refine key (S ov) (by simp [cats]) _ ?_
  intro ch hch
  simpa using hch

/-- C2, at a concrete generation: 16 characters, default specials, the stream
0, 1, 2, ... -/
theorem generate_password_class_minimums_witness :
    2 ≤ "BdM*LJNP5OKI&4cA".data.countP Char.isUpper ∧
      2 ≤ "BdM*LJNP5OKI&4cA".data.countP Char.isLower ∧
      2 ≤ "BdM*LJNP5OKI&4cA".data.countP Char.isDigit ∧
      (false = false →
        2 ≤ "BdM*LJNP5OKI&4cA".data.countP (fun ch => decide (ch ∈ S []))) :=
  generate_password_class_minimums 16 [] false (draws counter 0 31) []
    "BdM*LJNP5OKI&4cA".data (by decide) (by rfl)

/-- On the stream of bytes 255 the rejection loop with a threshold of at most
255 rejects every byte and is still drawing after any number of draws. -/
theorem uniform_index_loop_all255 (n max : Nat) (hmax : max ≤ 255) :
    ∀ (m p : Nat), uniform_index_loop n max (draws all255 p m) = .starved := by
  intro m
  induction m with
  | zero => intro p; rfl
  | succ m ih =>
    intro p
    have hb : (all255 p).val ≥ max := hmax
    rw [draws, uniform_index_loop, if_pos hb]
    exact ih (p + 1)

/-- C3 (the claim fails on the code): on the never-failing stream that
delivers the byte 255 at every call, a generation of length 16 with the default
arguments never returns: the first call is `uniform_index(26)`, whose threshold
is 234, so every byte is rejected and the generation is still drawing after
any number of draws. -/
theorem generate_password_16_starves_on_all255 :
    (∀ m, generate_password 16 [] false (draws all255 0 m) = .starved) ∧
      ¬ ∃ (m : Nat) (pw : List Char) (rest : List Draw),
        generate_password 16 [] false (draws all255 0 m) = .ok pw rest := by
  have hst : ∀ m, generate_password 16 [] false (draws all255 0 m) = .starved := by
    intro m
    have hU : U.length = 26 := rfl
    have hu : uniform_index 26 (draws all255 0 m) = .starved := by
      have h26 : (26 : Nat) ≠ 0 := by decide
      simp only [uniform_index, if_neg h26]
      exact uniform_index_loop_all255 26 (limit 26) (by decide) m 0
    have hp : push_random U [] (draws all255 0 m) = .starved := by
      simp only [push_random, hU, hu, Res.bind]
    have h16 : ¬ (16 : Nat) < 16 := by decide
    simp only [generate_password, if_neg h16]
    have hc : cats [] false = U :: [L, D, S []] := rfl
    rw [hc, draw_minimums, hp]
    rfl
  refine ⟨hst, ?_⟩
  rintro ⟨m, pw, rest, h⟩
  rw [hst m] at h
  cases h

/-- C3 (amended): every length below 16 is rejected with the invalid-length
error, whatever the other arguments and the draws. With length 16 and the
default arguments (no override, specials enabled) a generation on a
never-failing stream throws nothing, and it returns a 16-character password on
every never-failing stream in which each byte value occurs infinitely
often. -/
theorem generate_password_length_boundary :
    (∀ (length : Nat) (ov : List Char) (ns : Bool) (ds : List Draw),
      length < 16 → generate_password length ov ns ds = .err .invalidLength) ∧
    (∀ (s : ByteStream) (m : Nat) (e : Error),
      generate_password 16 [] false (draws s 0 m) ≠ .err e) ∧
    (∀ s : ByteStream, Fair s →
      ∃ m pw, generate_password 16 [] false (draws s 0 m) = .ok pw [] ∧
        pw.length = 16) := by
  refine ⟨?_, ?_, ?_⟩
  · intro length ov ns ds h
    simp [generate_password, h]
  · intro s m e
    obtain ⟨pre, hpre⟩ := draws_eq_map_some s m 0
    rw [hpre]
    exact (generate_password_safe (le_refl 16) [] false pre).1 e
  · intro s hs
    have hS : (false = true) ∨ (S []).length ≤ 194 := Or.inr (by decide)
    exact generate_password_completes (le_refl 16) (by omega) [] false hS hs 0

/-- C3 (amended), at length 15 (any draws fail) and at length 16 on the stream
0, 1, 2, ... -/
theorem generate_password_length_boundary_witness :
    (15 < 16 ∧ generate_password 15 [] false (draws counter 0 31) = .err .invalidLength) ∧
    (Fair counter ∧
      ∃ m pw, generate_password 16 [] false (draws counter 0 m) = .ok pw [] ∧
        pw.length = 16) :=
  ⟨⟨by decide, generate_password_length_boundary.1 15 [] false _ (by decide)⟩,
    fair_counter, generate_password_length_boundary.2.2 counter fair_counter⟩

/-- C4: for `1 ≤ n ≤ 256`, an index returned by `uniform_index(n)` lies in
`[0, n)`. -/
theorem uniform_index_in_range (n : Nat) (_h1 : 1 ≤ n) (_h2 : n ≤ 256)
    (ds rest : List Draw) (i : Nat) (h : uniform_index n ds = .ok i rest) :
    0 ≤ i ∧ i < n :=
  ⟨Nat.zero_le i, (uniform_index_ok h).2.2.1⟩

/-- C4, at `n = 26` with the draws 240 (rejected) and 37 (accepted). -/
theorem uniform_index_in_range_witness : 0 ≤ 11 ∧ 11 < 26 :=
  uniform_index_in_range 26 (by decide) (by decide) [some 240, some 37] [] 11 (by rfl)

/-- C5: for `1 ≤ n ≤ 256` and every index `k < n`, a single draw `b` makes
`uniform_index(n)` return `k` exactly when `b` is accepted
(`b < 256 - 256 % n`) and `b % n = k`; the number of such bytes is
`256 / n`, the same for every `k`; the accepted bytes number `n * (256 / n)`,
so each index has probability exactly `1 / n` given acceptance. -/
theorem uniform_index_exactly_uniform (n : Nat) (h1 : 1 ≤ n) (h2 : n ≤ 256)
    (k : Nat) (hk : k < n) :
    (∀ b : Byte, uniform_index n [some b] = Res.ok k [] ↔
      (b.val < 256 - 256 % n ∧ b.val % n = k)) ∧
    (Finset.univ.filter (fun b : Byte => uniform_index n [some b] = Res.ok k [])).card =
      256 / n ∧
    (Finset.univ.filter (fun b : Byte => b.val < 256 - 256 % n)).card = n * (256 / n) ∧
    ((256 / n : ℕ) : ℚ) / ((n * (256 / n) : ℕ) : ℚ) = 1 / (n : ℚ) := by
  have hn : n ≠ 0 := by omega
  have hone : ∀ (b : Byte) (i : Nat), uniform_index n [some b] = Res.ok i [] ↔
      (b.val < limit n ∧ b.val % n = i) := by
    intro b i
    by_cases hb : b.val ≥ limit n
    · simp only [uniform_index, if_neg hn, uniform_index_loop, if_pos hb]
      constructor
      · intro h; cases h
      · intro h; omega
    · simp only [uniform_index, if_neg hn, uniform_index_loop, if_neg hb]
      constructor
      · intro h
        injection h with h3 h4
        exact ⟨by omega, h3⟩
      · rintro ⟨_, h3⟩
        rw [h3]
  refine ⟨fun b => hone b k, ?_, ?_, ?_⟩
  · have hset : Finset.univ.filter (fun b : Byte => uniform_index n [some b] = Res.ok k []) =
        Finset.univ.filter (fun b : Byte => b.val < limit n ∧ b.val % n = k) :=
      Finset.filter_congr fun b _ => hone b k
    rw [hset]
    exact card_accepted_to n h1 k hk
  · rw [← limit_eq_mul]
    exact card_accepted n
  · have hq : 1 ≤ 256 / n := (Nat.one_le_div_iff (by omega)).mpr h2
    have hq0 : ((256 / n : ℕ) : ℚ) ≠ 0 := by
      have : (256 / n : ℕ) ≠ 0 := by omega
      exact_mod_cast this
    have hn0 : (n : ℚ) ≠ 0 := by exact_mod_cast hn
    push_cast
    field_simp
    ring

/-- C5, at `n = 26` and `k = 3`: nine bytes map to each index. -/
theorem uniform_index_exactly_uniform_witness :
    (∀ b : Byte, uniform_index 26 [some b] = Res.ok 3 [] ↔
      (b.val < 256 - 256 % 26 ∧ b.val % 26 = 3)) ∧
    (Finset.univ.filter (fun b : Byte => uniform_index 26 [some b] = Res.ok 3 [])).card =
      256 / 26 ∧
    (Finset.univ.filter (fun b : Byte => b.val < 256 - 256 % 26)).card = 26 * (256 / 26) ∧
    ((256 / 26 : ℕ) : ℚ) / ((26 * (256 / 26) : ℕ) : ℚ) = 1 / ((26 : ℕ) : ℚ) :=
  uniform_index_exactly_uniform 26 (by decide) (by decide) 3 (by decide)

/-- C6 (the code at the failing input): `uniform_index(257)` has no
invalid-domain check to hit. It never throws that error; on a never-failing
source it rejects every byte and is still drawing after any number of draws;
it returns no index. Only `n = 0` throws the invalid-domain error. -/
theorem uniform_index_257_no_domain_error :
    (∀ ds : List Draw, uniform_index 257 ds ≠ .err .invalidDomain) ∧
    (∀ (s : ByteStream) (p m : Nat), uniform_index 257 (draws s p m) = .starved) ∧
    (∀ (ds rest : List Draw) (i : Nat), uniform_index 257 ds ≠ .ok i rest) ∧
    (∀ ds : List Draw, uniform_index 0 ds = .err .invalidDomain) := by
  have hloop : ∀ ds : List Draw, uniform_index_loop 257 (limit 257) ds ≠ .err .invalidDomain := by
    intro ds
    induction ds with
    | nil => simp [uniform_index_loop]
    | cons d ds ih =>
      cases d with
      | none => simp [uniform_index_loop]
      | some b =>
        have hb : b.val ≥ limit 257 := by simp [limit]
        rw [uniform_index_loop, if_pos hb]
        exact ih
  refine ⟨?_, ?_, ?_, ?_⟩
  · intro ds
    simpa [uniform_index] using hloop ds
  · intro s p m
    induction m generalizing p with
    | zero => rfl
    | succ m ih =>
      have hb : (s p).val ≥ limit 257 := by simp [limit]
      have := ih (p + 1)
      simp only [uniform_index, draws] at this ⊢
      rw [if_neg (by decide)] at this ⊢
      rw [uniform_index_loop, if_pos hb]
      exact this
  · intro ds rest i h
    have := (uniform_index_ok h).2.1
    omega
  · intro ds
    simp [uniform_index]

/-- C7: a shuffle that returns has permuted its input: the multiset of elements
and the length are unchanged. -/
theorem secure_shuffle_permutation {α : Type} (v v1 : List α) (ds rest : List Draw)
    (h : secure_shuffle v ds = .ok v1 rest) :
    (v1 : Multiset α) = (v : Multiset α) ∧ v1.length = v.length := by
  have hp : v1.Perm v := secure_shuffle_loop_perm _ _ _ _ _ h
  exact ⟨Multiset.coe_eq_coe.mpr hp, hp.length_eq⟩

/-- C7, at the vector `a b c` with the draws 1 and 0. -/
theorem secure_shuffle_permutation_witness :
    ((['c', 'a', 'b'] : List Char) : Multiset Char) = (['a', 'b', 'c'] : List Char) ∧
      ['c', 'a', 'b'].length = ['a', 'b', 'c'].length :=
  secure_shuffle_permutation ['a', 'b', 'c'] ['c', 'a', 'b'] [some 1, some 0] [] (by rfl)

/-- C8: every character of a returned password is in the combined alphabet of
the active classes. With specials disabled it is an uppercase letter, a
lowercase letter or a digit, whatever the override; with specials enabled it
may also be a character of the override when that is non-empty, and of the
default special set otherwise. -/
theorem generate_password_alphabet (length : Nat) (ov : List Char) (ns : Bool)
    (ds rest : List Draw) (pw : List Char)
    (h : generate_password length ov ns ds = .ok pw rest) :
    (ns = true → ∀ ch ∈ pw, ch.isUpper = true ∨ ch.isLower = true ∨ ch.isDigit = true) ∧
    (ns = false → ov ≠ [] → ∀ ch ∈ pw,
      ch.isUpper = true ∨ ch.isLower = true ∨ ch.isDigit = true ∨ ch ∈ ov) ∧
    (ns = false → ov = [] → ∀ ch ∈ pw,
      ch.isUpper = true ∨ ch.isLower = true ∨ ch.isDigit = true ∨ ch ∈ default_specials) := by
  obtain ⟨_, _, picks, extra, hperm, _, hmem, _, _, _⟩ := generate_password_ok h
  have key : ∀ ch ∈ pw, ch ∈ U ∨ ch ∈ L ∨ ch ∈ D ∨ (ns = false ∧ ch ∈ S ov) :=
    fun ch hch => mem_cats_flatten (hmem ch (hperm.mem_iff.mp hch))
  refine ⟨?_, ?_, ?_⟩
  · intro hns ch hch
    rcases key ch hch with hu | hl | hd | ⟨hf, _⟩
    · exact Or.inl (U_isUpper ch hu)
    · exact Or.inr (Or.inl (L_isLower ch hl))
    · exact Or.inr (Or.inr (D_isDigit ch hd))
    · rw [hns] at hf; cases hf
  · intro _ hov ch hch
    have hS : S ov = ov := by
      cases ov with
      | nil => exact absurd rfl hov
      | cons a t => rfl
    rcases key ch hch with hu | hl | hd | ⟨_, hs⟩
    · exact Or.inl (U_isUpper ch hu)
    · exact Or.inr (Or.inl (L_isLower ch hl))
    · exact Or.inr (Or.inr (Or.inl (D_isDigit ch hd)))
    · rw [hS] at hs; exact Or.inr (Or.inr (Or.inr hs))
  · intro _ hov ch hch
    have hS : S ov = default_specials := by rw [hov]; rfl
    rcases key ch hch with hu | hl | hd | ⟨_, hs⟩
    · exact Or.inl (U_isUpper ch hu)
    · exact Or.inr (Or.inl (L_isLower ch hl))
    · exact Or.inr (Or.inr (Or.inl (D_isDigit ch hd)))
    · rw [hS] at hs; exact Or.inr (Or.inr (Or.inr hs))

/-- C8, at a concrete generation: 20 characters, specials disabled, an override
that is ignored, the stream 0, 1, 2, ... -/
theorem generate_password_alphabet_witness :
    (true = true → ∀ ch ∈ "SdNQOP5JLTHRBMKIG4cA".data,
      ch.isUpper = true ∨ ch.isLower = true ∨ ch.isDigit = true) ∧
    (true = false → "ab,".data ≠ [] → ∀ ch ∈ "SdNQOP5JLTHRBMKIG4cA".data,
      ch.isUpper = true ∨ ch.isLower = true ∨ ch.isDigit = true ∨ ch ∈ "ab,".data) ∧
    (true = false → "ab,".data = [] → ∀ ch ∈ "SdNQOP5JLTHRBMKIG4cA".data,
      ch.isUpper = true ∨ ch.isLower = true ∨ ch.isDigit = true ∨ ch ∈ default_specials) :=
  generate_password_alphabet 20 "ab,".data true (draws counter 0 39) []
    "SdNQOP5JLTHRBMKIG4cA".data (by rfl)

/-- C9: when the generation is waiting for its next draw (all draws so far
succeeded and it has not returned) and that draw fails, `generate_password`
throws the entropy error, whatever the source would deliver afterwards: the
failed draw is not repeated and nothing stands in for it. A generation that
returns a password has read successful draws only. -/
theorem generate_password_entropy_failure (length : Nat) (ov : List Char) (ns : Bool) :
    (∀ (pre : List Byte) (later : List Draw),
      generate_password length ov ns (pre.map some) = .starved →
      generate_password length ov ns (pre.map some ++ none :: later) =
        .err .entropyUnavailable) ∧
    (∀ (ds rest : List Draw) (pw : List Char),
      generate_password length ov ns ds = .ok pw rest →
      ∃ pre : List Byte, ds = pre.map some ++ rest) :=
  ⟨fun _ later h => (generate_password_lawful length ov ns).starved_fail _ h later,
    fun ds rest pw h => (generate_password_lawful length ov ns).ok_consumed ds pw rest h⟩

/-- C9, at a 16-character generation on the stream 0, 1, 2, ... whose draw
number 3 (a class-minimum draw), 10 (a fill draw) or 20 (a shuffle draw)
fails. -/
theorem generate_password_entropy_failure_witness :
    (generate_password 16 [] false (List.map some [0, 1, 2]) = .starved ∧
      generate_password 16 [] false (List.map some [0, 1, 2] ++ none :: [some 3]) =
        .err .entropyUnavailable) ∧
    (generate_password 16 [] false
        (List.map some [0, 1, 2, 3, 4, 5, 6, 7, 8, 9]) = .starved ∧
      generate_password 16 [] false
        (List.map some [0, 1, 2, 3, 4, 5, 6, 7, 8, 9] ++ none :: [some 10, some 11]) =
        .err .entropyUnavailable) ∧
    (generate_password 16 [] false
        (List.map some [0, 1, 2, 3, 4, 5, 6, 7, 8, 9, 10, 11, 12, 13, 14, 15, 16, 17, 18,
          19]) = .starved ∧
      generate_password 16 [] false
        (List.map some [0, 1, 2, 3, 4, 5, 6, 7, 8, 9, 10, 11, 12, 13, 14, 15, 16, 17, 18,
          19] ++ none :: []) = .err .entropyUnavailable) :=
  ⟨⟨by rfl, (generate_password_entropy_failure 16 [] false).1 [0, 1, 2] [some 3] (by rfl)⟩,
    ⟨by rfl, (generate_password_entropy_failure 16 [] false).1
      [0, 1, 2, 3, 4, 5, 6, 7, 8, 9] [some 10, some 11] (by rfl)⟩,
    ⟨by rfl, (generate_password_entropy_failure 16 [] false).1
      [0, 1, 2, 3, 4, 5, 6, 7, 8, 9, 10, 11, 12, 13, 14, 15, 16, 17, 18, 19] [] (by rfl)⟩⟩

/-- C10: a field that contains a comma, a double quote, a line feed or a
carriage return is returned between one pair of double quotes, with each double
quote of the field doubled and every other character copied in order; any other
field is returned unchanged. -/
theorem csv_escape_spec (s : List Char) :
    ((∃ c ∈ s, c = ',' ∨ c = '"' ∨ c = '\n' ∨ c = '\r') →
      csv_escape s =
        ['"'] ++ s.flatMap (fun c => if c = '"' then ['"', '"'] else [c]) ++ ['"']) ∧
    ((∀ c ∈ s, c ≠ ',' ∧ c ≠ '"' ∧ c ≠ '\n' ∧ c ≠ '\r') → csv_escape s = s) := by
  constructor
  · intro h
    have hq : needs_quotes s = true := (needs_quotes_iff s).mpr h
    simp only [csv_escape, hq, Bool.not_true, Bool.false_eq_true, if_false]
    rw [foldl_append_eq]
  · intro h
    have hq : needs_quotes s = false := by
      cases hn : needs_quotes s with
      | false => rfl
      | true =>
        obtain ⟨c, hc, hcc⟩ := (needs_quotes_iff s).mp hn
        have := h c hc
        tauto
    simp [csv_escape, hq]

/-- C10, at the fields `ab,c`, `d"e` and `plain`. -/
theorem csv_escape_spec_witness :
    csv_escape "ab,c".data = "\"ab,c\"".data ∧
      csv_escape "d\"e".data = "\"d\"\"e\"".data ∧
      csv_escape "plain".data = "plain".data :=
  ⟨(csv_escape_spec "ab,c".data).1 ⟨',', by decide, Or.inl rfl⟩,
    (csv_escape_spec "d\"e".data).1 ⟨'"', by decide, Or.inr (Or.inl rfl)⟩,
    (csv_escape_spec "plain".data).2 (by decide)⟩

/-! ## The rejection loop step by step -/

theorem uniform_index_loop_skip (n max : Nat) (b0 : Byte) (rest : List Draw)
    (hb0 : b0.val < max) :
    ∀ pre : List Byte, (∀ x ∈ pre, max ≤ x.val) →
      uniform_index_loop n max (pre.map some ++ some b0 :: rest) = .ok (b0.val % n) rest := by
  intro pre
  induction pre with
  | nil =>
    intro _
    have : ¬ b0.val ≥ max := by omega
    simp [uniform_index_loop, this]
  | cons x pre ih =>
    intro h
    have hx : x.val ≥ max := h x (List.mem_cons_self _ _)
    rw [List.map_cons, List.cons_append, uniform_index_loop, if_pos hx]
    exact ih fun y hy => h y (List.mem_cons_of_mem _ hy)

/-- C13: for `1 ≤ n ≤ 256`, when the draws are a run of bytes at or above
`limit = 256 - 256 % n` followed by a byte `b0` below it, `uniform_index(n)`
discards the run, reads exactly up to `b0`, leaves the rest unread and returns
`b0 % n`; conversely that is the only way it returns. For `n = 26` the limit
is 234: a byte in `234..255` is always discarded, a byte in `0..233` is always
accepted. -/
theorem uniform_index_rejection_trace (n : Nat) (h1 : 1 ≤ n) (_h2 : n ≤ 256) :
    (∀ (pre : List Byte) (b0 : Byte) (rest : List Draw),
      (∀ x ∈ pre, 256 - 256 % n ≤ x.val) → b0.val < 256 - 256 % n →
      uniform_index n (pre.map some ++ some b0 :: rest) = .ok (b0.val % n) rest) ∧
    (∀ (ds rest : List Draw) (i : Nat), uniform_index n ds = .ok i rest →
      ∃ (pre : List Byte) (b0 : Byte), ds = pre.map some ++ some b0 :: rest ∧
        (∀ x ∈ pre, 256 - 256 % n ≤ x.val) ∧ b0.val < 256 - 256 % n ∧ i = b0.val % n) ∧
    limit 26 = 234 ∧
    (∀ (b : Byte) (ds : List Draw), 234 ≤ b.val →
      uniform_index 26 (some b :: ds) = uniform_index 26 ds) ∧
    (∀ (b : Byte) (ds : List Draw), b.val < 234 →
      uniform_index 26 (some b :: ds) = .ok (b.val % 26) ds) := by
  have hn : n ≠ 0 := by omega
  refine ⟨?_, ?_, rfl, ?_, ?_⟩
  · intro pre b0 rest hpre hb0
    simp only [uniform_index, if_neg hn]
    exact uniform_index_loop_skip n (limit n) b0 rest hb0 pre hpre
  · intro ds rest i h
    exact (uniform_index_ok h).2.2.2
  · intro b ds hb
    have hb1 : b.val ≥ limit 26 := hb
    have h26 : (26 : Nat) ≠ 0 := by decide
    simp only [uniform_index, if_neg h26]
    rw [uniform_index_loop, if_pos hb1]
  · intro b ds hb
    have hb1 : ¬ b.val ≥ limit 26 := by
      have : limit 26 = 234 := rfl
      omega
    have h26 : (26 : Nat) ≠ 0 := by decide
    simp only [uniform_index, if_neg h26]
    rw [uniform_index_loop, if_neg hb1]

/-- C13, at `n = 26` with the draws 234, 255 (discarded), 233 (accepted) and an
unread 7. -/
theorem uniform_index_rejection_trace_witness :
    uniform_index 26 (List.map some [234, 255] ++ some 233 :: [some 7]) =
      .ok (233 % 26) [some 7] :=
  (uniform_index_rejection_trace 26 (by decide) (by decide)).1 [234, 255] 233 [some 7]
    (by
      intro x hx
      simp only [List.mem_cons, List.mem_singleton, List.not_mem_nil, or_false] at hx
      rcases hx with rfl | rfl <;> decide)
    (by decide)

/-! ## The rejection threshold -/

/-- C16: for `1 ≤ n ≤ 256` the number of rejected byte values is `256 % n`,
at most 127, with 127 reached at `n = 129`; so at least 129 byte values are
accepted and the expected number of draws `256 / limit` is below 2. -/
theorem rejection_rate_bound (n : Nat) (h1 : 1 ≤ n) (h2 : n ≤ 256) :
    (Finset.univ.filter (fun b : Byte => limit n ≤ b.val)).card = 256 % n ∧
    256 % n ≤ 127 ∧
    (Finset.univ.filter (fun b : Byte => limit 129 ≤ b.val)).card = 127 ∧
    129 ≤ limit n ∧
    (256 : ℚ) / (limit n : ℚ) < 2 := by
  have hmod : 256 % n ≤ 127 := by
    by_cases h : n ≤ 128
    · have := Nat.mod_lt 256 (show n > 0 by omega)
      omega
    · rw [Nat.mod_eq_sub_mod h2]
      have : (256 - n) % n ≤ 256 - n := Nat.mod_le _ _
      omega
  have hrej : ∀ k : Nat, (Finset.univ.filter (fun b : Byte => limit k ≤ b.val)).card =
      256 - limit k := by
    intro k
    have hsplit : (Finset.univ.filter (fun b : Byte => b.val < limit k)).card +
        (Finset.univ.filter (fun b : Byte => ¬ b.val < limit k)).card =
        (Finset.univ : Finset Byte).card :=
      Finset.filter_card_add_filter_neg_card_eq_card _
    rw [card_accepted k] at hsplit
    have hcard : (Finset.univ : Finset Byte).card = 256 := by
      rw [Finset.card_univ, Fintype.card_fin]
    have hset : Finset.univ.filter (fun b : Byte => ¬ b.val < limit k) =
        Finset.univ.filter (fun b : Byte => limit k ≤ b.val) :=
      Finset.filter_congr fun b _ => Nat.not_lt
    rw [hset, hcard] at hsplit
    omega
  have hlim : limit n = 256 - 256 % n := rfl
  have h129 : 129 ≤ limit n := by omega
  refine ⟨?_, hmod, ?_, h129, ?_⟩
  · rw [hrej n]; omega
  · rw [hrej 129]; rfl
  · have hpos : (0 : ℚ) < (limit n : ℚ) := by exact_mod_cast (show 0 < limit n by omega)
    rw [div_lt_iff₀ hpos]
    have : (129 : ℚ) ≤ (limit n : ℚ) := by exact_mod_cast h129
    linarith

/-- C16, at the worst case `n = 129`. -/
theorem rejection_rate_bound_witness :
    (Finset.univ.filter (fun b : Byte => limit 129 ≤ b.val)).card = 256 % 129 ∧
    256 % 129 ≤ 127 ∧
    (Finset.univ.filter (fun b : Byte => limit 129 ≤ b.val)).card = 127 ∧
    129 ≤ limit 129 ∧
    (256 : ℚ) / (limit 129 : ℚ) < 2 :=
  rejection_rate_bound 129 (by decide) (by decide)

/-- C17: for `1 ≤ n ≤ 256` the threshold `256 - 256 % n` is the largest
multiple of `n` not exceeding 256: `n` divides it, it is at most 256, adding
`n` exceeds 256, and every multiple of `n` up to 256 is at most it. -/
theorem limit_largest_multiple (n : Nat) (h1 : 1 ≤ n) (_h2 : n ≤ 256) :
    n ∣ limit n ∧ limit n ≤ 256 ∧ 256 < limit n + n ∧
      ∀ m, n ∣ m → m ≤ 256 → m ≤ limit n := by
  have hmod := Nat.mod_lt 256 (show n > 0 by omega)
  have hlim : limit n = 256 - 256 % n := rfl
  refine ⟨⟨256 / n, limit_eq_mul n⟩, limit_le n, by omega, ?_⟩
  rintro m ⟨k, rfl⟩ hm
  rw [limit_eq_mul]
  apply Nat.mul_le_mul_left
  exact (Nat.le_div_iff_mul_le (by omega)).mpr (by rw [Nat.mul_comm] at hm; exact hm)

/-- C17, at `n = 26`: the threshold is 234 = 9 * 26. -/
theorem limit_largest_multiple_witness :
    26 ∣ limit 26 ∧ limit 26 ≤ 256 ∧ 256 < limit 26 + 26 ∧
      ∀ m, 26 ∣ m → m ≤ 256 → m ≤ limit 26 :=
  limit_largest_multiple 26 (by decide) (by decide)

/-! ## Element accesses of the shuffle -/

theorem uniform_index_loop_err {n max : Nat} {ds : List Draw} {e : Error}
    (h : uniform_index_loop n max ds = .err e) : e = .entropyUnavailable := by
  induction ds with
  | nil => simp [uniform_index_loop] at h
  | cons d ds ih =>
    cases d with
    | none =>
      simp only [uniform_index_loop] at h
      injection h with h1
      exact h1.symm
    | some b =>
      by_cases hb : b.val ≥ max
      · rw [uniform_index_loop, if_pos hb] at h
        exact ih h
      · rw [uniform_index_loop, if_neg hb] at h
        cases h

theorem uniform_index_err {n : Nat} {ds : List Draw} {e : Error}
    (h : uniform_index n ds = .err e) :
    (n = 0 ∧ e = .invalidDomain) ∨ (n ≠ 0 ∧ e = .entropyUnavailable) := by
  unfold uniform_index at h
  split at h
  · rename_i hn
    injection h with h1
    exact Or.inl ⟨hn, h1.symm⟩
  · rename_i hn
    exact Or.inr ⟨hn, uniform_index_loop_err h⟩

theorem secure_shuffle_loop_in_bounds {α : Type} (i : Nat) :
    ∀ (v : List α) (ds : List Draw), i ≤ v.length →
      secure_shuffle_loop i v ds ≠ .err .outOfRange := by
  induction i with
  | zero => intro v ds _ h; simp [secure_shuffle_loop] at h
  | succ i ih =>
    intro v ds hv h
    rw [secure_shuffle_loop] at h
    split at h
    · cases hu : uniform_index (i + 1) ds with
      | ok j ds1 =>
        have hj := (uniform_index_ok hu).2.2.1
        have hsw := swap_of_lt v (show i < v.length by omega) (show j < v.length by omega)
        simp only [hu, Res.bind, hsw] at h
        exact ih _ ds1 (by rw [swap_length hsw]; omega) h
      | err e =>
        simp only [hu, Res.bind] at h
        injection h with h1
        subst h1
        rcases uniform_index_err hu with ⟨_, h2⟩ | ⟨_, h2⟩ <;> cases h2
      | starved => simp [hu, Res.bind] at h
    · cases h

/-- C19: for a vector of at most 256 elements the shuffle never makes an
out-of-range access, whatever the draws: at an iteration `i` with
`2 ≤ i ≤ m` a drawn index `j` satisfies `j < i`, so positions `i - 1` and `j`
are both valid and the swap succeeds; a vector of at most one element is
returned unchanged without reading a draw. -/
theorem secure_shuffle_accesses_in_bounds {α : Type} (v : List α)
    (_hm : v.length ≤ 256) (ds : List Draw) :
    secure_shuffle v ds ≠ .err .outOfRange ∧
    (∀ (i j : Nat) (w : List α) (ds1 rest : List Draw),
      2 ≤ i → i ≤ v.length → w.length = v.length →
      uniform_index i ds1 = .ok j rest →
      j < i ∧ i - 1 < w.length ∧ j < w.length ∧
        ∃ w1, swap w (i - 1) j = some w1 ∧ w1.length = v.length) ∧
    (v.length ≤ 1 → secure_shuffle v ds = .ok v ds) := by
  refine ⟨secure_shuffle_loop_in_bounds _ v ds (le_refl _), ?_, ?_⟩
  · intro i j w ds1 rest h2 hi hw hu
    have hj := (uniform_index_ok hu).2.2.1
    have hsw := swap_of_lt w (show i - 1 < w.length by omega) (show j < w.length by omega)
    exact ⟨hj, by omega, by omega, _, hsw, (swap_length hsw).trans hw⟩
  · intro h1
    unfold secure_shuffle
    cases hl : v.length with
    | zero => rfl
    | succ k =>
      have hk : ¬ k + 1 > 1 := by omega
      rw [secure_shuffle_loop, if_neg hk]

/-- C19, at the vector `a b c` with the draws 1 and 0. -/
theorem secure_shuffle_accesses_in_bounds_witness :
    secure_shuffle ['a', 'b', 'c'] [some 1, some 0] ≠ .err .outOfRange ∧
    (∀ (i j : Nat) (w : List Char) (ds1 rest : List Draw),
      2 ≤ i → i ≤ ['a', 'b', 'c'].length → w.length = ['a', 'b', 'c'].length →
      uniform_index i ds1 = .ok j rest →
      j < i ∧ i - 1 < w.length ∧ j < w.length ∧
        ∃ w1, swap w (i - 1) j = some w1 ∧ w1.length = ['a', 'b', 'c'].length) ∧
    (['a', 'b', 'c'].length ≤ 1 →
      secure_shuffle ['a', 'b', 'c'] [some 1, some 0] = .ok ['a', 'b', 'c'] [some 1, some 0]) :=
  secure_shuffle_accesses_in_bounds ['a', 'b', 'c'] (by decide) [some 1, some 0]

/-! ## CSV decoding and the CSV file -/

theorem csv_unquote_cons_ne {a : Char} (ha : a ≠ '"') (t : List Char) :
    csv_unquote (a :: t) = a :: csv_unquote t := by
  cases t with
  | nil => rfl
  | cons b t =>
    have : ¬ (a = '"' ∧ b = '"') := fun h => ha h.1
    rw [csv_unquote, if_neg this]

theorem csv_unquote_doubled (s : List Char) :
    csv_unquote (s.flatMap fun c => if c = '"' then ['"', '"'] else [c]) = s := by
  induction s with
  | nil => rfl
  | cons a s ih =>
    by_cases ha : a = '"'
    · subst ha
      simp only [List.flatMap_cons, if_true, List.cons_append, List.nil_append]
      rw [csv_unquote, if_pos ⟨rfl, rfl⟩, ih]
    · simp only [List.flatMap_cons, if_neg ha, List.cons_append, List.nil_append]
      rw [csv_unquote_cons_ne ha, ih]

theorem csv_escape_quoted {s : List Char} (h : needs_quotes s = true) :
    csv_escape s =
      '"' :: ((s.flatMap fun c => if c = '"' then ['"', '"'] else [c]) ++ ['"']) := by
  simp only [csv_escape, h, Bool.not_true, Bool.false_eq_true, if_false]
  rw [foldl_append_eq]
  rfl

theorem csv_escape_plain {s : List Char} (h : needs_quotes s = false) :
    csv_escape s = s := by
  simp [csv_escape, h]

/-- C20: the decoder (strip the outer quotes of a field that starts with a
double quote and replace each doubled double quote by one; return any other
field as it is) recovers every string from its escaped form, so `csv_escape`
is injective. -/
theorem csv_decode_escape :
    (∀ s : List Char, csv_decode (csv_escape s) = s) ∧
      Function.Injective csv_escape := by
  have hdec : ∀ s : List Char, csv_decode (csv_escape s) = s := by
    intro s
    cases hq : needs_quotes s with
    | true =>
      rw [csv_escape_quoted hq]
      simp only [csv_decode, if_true]
      rw [List.dropLast_concat, csv_unquote_doubled]
    | false =>
      rw [csv_escape_plain hq]
      cases s with
      | nil => rfl
      | cons a t =>
        have ha : a ≠ '"' := by
          intro h
          have : needs_quotes (a :: t) = true :=
            (needs_quotes_iff _).mpr ⟨a, List.mem_cons_self _ _, Or.inr (Or.inl h)⟩
          rw [hq] at this
          cases this
        simp only [csv_decode, if_neg ha]
  exact ⟨hdec, Function.LeftInverse.injective hdec⟩

theorem write_csv_loop_eq (ps : List (List Char)) :
    ∀ (i : Nat) (f : List Char),
      write_csv_loop i ps f =
        f ++ (ps.enumFrom (i + 1)).flatMap fun ip =>
          (Nat.repr ip.1).data ++ [','] ++ csv_escape ip.2 ++ ['\r', '\n'] := by
  induction ps with
  | nil => intro i f; simp [write_csv_loop]
  | cons p ps ih =>
    intro i f
    rw [write_csv_loop, ih]
    simp [List.enumFrom_cons, List.flatMap_cons]

/-- C11: the content `write_csv` writes is the byte-order mark EF BB BF, the
header row `#,Password`, then one row per password, in input order, row `i`
(from 1) being the decimal number `i`, a comma and `csv_escape` of the
password, each row ended by CR LF; for the passwords `ab,c` and `d"e` the rows
are `1,"ab,c"` and `2,"d""e"`. -/
theorem write_csv_content (pwds : List (List Char)) :
    write_csv true pwds =
      some (bom ++ "#,Password\r\n".data ++
        (pwds.enumFrom 1).flatMap fun ip =>
          (Nat.repr ip.1).data ++ [','] ++ csv_escape ip.2 ++ ['\r', '\n']) ∧
    bom.map Char.toNat = [0xEF, 0xBB, 0xBF] ∧
    (pwds.enumFrom 1).length = pwds.length ∧
    write_csv true ["ab,c".data, "d\"e".data] =
      some (bom ++ "#,Password\r\n1,\"ab,c\"\r\n2,\"d\"\"e\"\r\n".data) := by
  refine ⟨?_, by decide, List.enumFrom_length, by rfl⟩
  simp only [write_csv, Bool.not_true, Bool.false_eq_true, if_false]
  rw [write_csv_loop_eq]

/-! ## The stages of a generation -/

theorem generate_password_stages {length : Nat} {ov : List Char} {ns : Bool}
    {ds rest : List Draw} {pw : List Char}
    (h : generate_password length ov ns ds = .ok pw rest) :
    ∃ (out out1 : List Char) (d1 d2 : List Draw),
      draw_minimums (cats ov ns) [] ds = .ok out d1 ∧
      fill (length - out.length) (cats ov ns).flatten length out d1 = .ok out1 d2 ∧
      secure_shuffle out1 d2 = .ok pw rest := by
  unfold generate_password at h
  split at h
  · cases h
  · simp only at h
    cases h1 : draw_minimums (cats ov ns) [] ds with
    | ok out d1 =>
      simp only [h1, Res.bind] at h
      cases h2 : fill (length - out.length) (cats ov ns).flatten length out d1 with
      | ok out1 d2 =>
        simp only [h2, Res.bind] at h
        exact ⟨out, out1, d1, d2, rfl, h2, h⟩
      | err e => simp [h2, Res.bind] at h
      | starved => simp [h2, Res.bind] at h
    | err e => simp [h1, Res.bind] at h
    | starved => simp [h1, Res.bind] at h

/-- C18 (the claim fails on the code): the combined alphabet of a generation
with specials enabled and no override has 85 characters, not 88: the default
special set has 23 characters. -/
theorem combined_alphabet_not_88 :
    (cats [] false).flatten.length = 85 ∧ default_specials.length = 23 ∧
      (cats [] false).flatten.length ≠ 88 := by
  decide

/-- C18 (amended): a returned password of length 16 with specials enabled and
no override is a shuffle of 8 characters from the per-class minimum draws
followed by 8 characters drawn from the combined alphabet, which is uppercase
+ lowercase + digits + default specials and has 85 characters. -/
theorem generate_password_16_composition (ds rest : List Draw) (pw : List Char)
    (h : generate_password 16 [] false ds = .ok pw rest) :
    ∃ (picks extra : List Char) (d1 d2 : List Draw),
      draw_minimums (cats [] false) [] ds = .ok picks d1 ∧
      fill 8 (cats [] false).flatten 16 picks d1 = .ok (picks ++ extra) d2 ∧
      secure_shuffle (picks ++ extra) d2 = .ok pw rest ∧
      picks.length = 8 ∧ extra.length = 8 ∧
      (∀ ch ∈ extra, ch ∈ (cats [] false).flatten) ∧
      (cats [] false).flatten = U ++ L ++ D ++ default_specials ∧
      (cats [] false).flatten.length = 85 := by
  obtain ⟨out, out1, d1, d2, h1, h2, h3⟩ := generate_password_stages h
  obtain ⟨picks, hout, hplen, _, _, _⟩ := draw_minimums_ok _ _ _ _ _ h1
  simp only [List.nil_append] at hout
  subst hout
  have hp8 : out.length = 8 := by rw [hplen]; rfl
  rw [hp8] at h2
  obtain ⟨extra, rfl, hemem, _, hlen⟩ := fill_ok _ _ _ _ _ _ _ h2
  have hl16 : (out ++ extra).length = 16 := hlen (by omega) (by omega)
  have he8 : extra.length = 8 := by
    rw [List.length_append] at hl16
    omega
  exact ⟨out, extra, d1, d2, h1, h2, h3, hp8, he8, hemem, rfl, by decide⟩

/-- C18 (amended), at the generation on the stream 0, 1, 2, ... -/
theorem generate_password_16_composition_witness :
    ∃ (picks extra : List Char) (d1 d2 : List Draw),
      draw_minimums (cats [] false) [] (draws counter 0 31) = .ok picks d1 ∧
      fill 8 (cats [] false).flatten 16 picks d1 = .ok (picks ++ extra) d2 ∧
      secure_shuffle (picks ++ extra) d2 = .ok "BdM*LJNP5OKI&4cA".data [] ∧
      picks.length = 8 ∧ extra.length = 8 ∧
      (∀ ch ∈ extra, ch ∈ (cats [] false).flatten) ∧
      (cats [] false).flatten = U ++ L ++ D ++ default_specials ∧
      (cats [] false).flatten.length = 85 :=
  generate_password_16_composition (draws counter 0 31) [] "BdM*LJNP5OKI&4cA".data (by rfl)

/-! ## Command-line defaults -/

/-- Options that are not on the command line keep their value: without `-n`
the count is untouched, without `-l` the length is. -/
theorem parse_args_loop_keeps (stoull : List Char → Option (Nat × Nat)) :
    ∀ (n : Nat) (args : List (List Char)) (opt o : Options), args.length ≤ n →
      parse_args_loop stoull args opt = .opts o →
      ("-n".data ∉ args → o.count = opt.count) ∧
        ("-l".data ∉ args → o.length = opt.length) := by
  intro n
  induction n with
  | zero =>
    intro args opt o hlen h
    cases args with
    | nil =>
      simp only [parse_args_loop] at h
      injection h with h1
      subst h1
      exact ⟨fun _ => rfl, fun _ => rfl⟩
    | cons a rest => simp at hlen
  | succ n ih =>
    intro args opt o hlen h
    cases args with
    | nil =>
      simp only [parse_args_loop] at h
      injection h with h1
      subst h1
      exact ⟨fun _ => rfl, fun _ => rfl⟩
    | cons a rest =>
      have hrest : rest.length ≤ n := by simpa using hlen
      rw [parse_args_loop.eq_def] at h
      simp only at h
      split_ifs at h with h1 h2 h3 h4 h5 h6 h7 h8
      · cases rest with
        | nil => simp at h
        | cons v rest1 =>
          simp only at h
          split at h
          · cases h
          · split_ifs at h
            have := ih rest1 _ o (by simp at hrest; omega) h
            refine ⟨fun hn => absurd (List.mem_cons.mpr (Or.inl h2.symm)) hn, fun hl => ?_⟩
            rw [this.2 fun hm => hl (List.mem_cons_of_mem _ (List.mem_cons_of_mem _ hm))]
      · cases rest with
        | nil => simp at h
        | cons v rest1 =>
          simp only at h
          split at h
          · cases h
          · split_ifs at h
            have := ih rest1 _ o (by simp at hrest; omega) h
            refine ⟨fun hn => ?_, fun hl => absurd (List.mem_cons.mpr (Or.inl h3.symm)) hl⟩
            rw [this.1 fun hm => hn (List.mem_cons_of_mem _ (List.mem_cons_of_mem _ hm))]
      · cases rest with
        | nil => simp at h
        | cons v rest1 =>
          simp only at h
          have := ih rest1 _ o (by simp at hrest; omega) h
          exact ⟨fun hn => this.1 fun hm =>
              hn (List.mem_cons_of_mem _ (List.mem_cons_of_mem _ hm)),
            fun hl => this.2 fun hm =>
              hl (List.mem_cons_of_mem _ (List.mem_cons_of_mem _ hm))⟩
      · have := ih rest _ o hrest h
        exact ⟨fun hn => this.1 fun hm => hn (List.mem_cons_of_mem _ hm),
          fun hl => this.2 fun hm => hl (List.mem_cons_of_mem _ hm)⟩
      · cases rest with
        | nil => simp at h
        | cons v rest1 =>
          simp only at h
          have := ih rest1 _ o (by simp at hrest; omega) h
          exact ⟨fun hn => this.1 fun hm =>
              hn (List.mem_cons_of_mem _ (List.mem_cons_of_mem _ hm)),
            fun hl => this.2 fun hm =>
              hl (List.mem_cons_of_mem _ (List.mem_cons_of_mem _ hm))⟩
      · cases rest with
        | nil => simp at h
        | cons v rest1 =>
          simp only at h
          have := ih rest1 _ o (by simp at hrest; omega) h
          exact ⟨fun hn => this.1 fun hm =>
              hn (List.mem_cons_of_mem _ (List.mem_cons_of_mem _ hm)),
            fun hl => this.2 fun hm =>
              hl (List.mem_cons_of_mem _ (List.mem_cons_of_mem _ hm))⟩
      · have := ih rest _ o hrest h
        exact ⟨fun hn => this.1 fun hm => hn (List.mem_cons_of_mem _ hm),
          fun hl => this.2 fun hm => hl (List.mem_cons_of_mem _ hm)⟩

theorem generate_passwords_length (k : Nat) (length : Nat) (sp : List Char) (ns : Bool) :
    ∀ (pwds r : List (List Char)) (ds rest : List Draw),
      generate_passwords k length sp ns pwds ds = .ok r rest →
      r.length = pwds.length + k := by
  induction k with
  | zero =>
    intro pwds r ds rest h
    simp only [generate_passwords] at h
    injection h with h1
    rw [← h1]; rfl
  | succ k ih =>
    intro pwds r ds rest h
    rw [generate_passwords] at h
    cases hg : generate_password length sp ns ds with
    | ok p d1 =>
      simp only [hg, Res.bind] at h
      have := ih _ _ _ _ h
      simp only [List.length_append, List.length_singleton] at this
      omega
    | err e => simp [hg, Res.bind] at h
    | starved => simp [hg, Res.bind] at h

theorem generate_passwords_completes (k : Nat) {length : Nat} (h16 : 16 ≤ length)
    (h256 : length ≤ 256) (sp : List Char) (ns : Bool)
    (hS : ns = true ∨ (S sp).length ≤ 194) {s : ByteStream} (hs : Fair s) :
    ∀ (pwds : List (List Char)) (p : Nat),
      Completes (generate_passwords k length sp ns pwds) s p
        (fun r => r.length = pwds.length + k) := by
  induction k with
  | zero => intro pwds p; exact completes_pure _ s p rfl
  | succ k ih =>
    intro pwds p
    have : generate_passwords (k + 1) length sp ns pwds = fun ds =>
        (generate_password length sp ns ds).bind fun q ds1 =>
          generate_passwords k length sp ns (pwds ++ [q]) ds1 := by
      funext ds; rw [generate_passwords]
    rw [this]
    refine completes_bind (generate_password_lawful _ _ _)
      (generate_password_completes h16 h256 sp ns hS hs p) ?_
    intro q _ p1
    obtain ⟨m, r, hr, hlen⟩ := ih (pwds ++ [q]) p1
    refine ⟨m, r, hr, ?_⟩
    simp only [List.length_append, List.length_singleton] at hlen
    omega

/-- Without `-n` on the command line, a run that generates its passwords
generates 10 of them. -/
theorem main_passwords_default_count (stoull : List Char → Option (Nat × Nat))
    (argv : List (List Char)) (ds rest : List Draw) (pwds : List (List Char))
    (hn : "-n".data ∉ argv.drop 1)
    (h : main_passwords stoull argv ds = some (.ok pwds rest)) : pwds.length = 10 := by
  unfold main_passwords at h
  cases hp : parse_args stoull argv with
  | exit code => simp [hp] at h
  | opts opt =>
    simp only [hp, Option.some.injEq] at h
    have hk := (parse_args_loop_keeps stoull _ _ _ _ (le_refl _) hp).1 hn
    have := generate_passwords_length _ _ _ _ _ _ _ _ h
    rw [this, hk]
    rfl

/-- C12 (the code at the failing input): with no option on the command line
`parse_args` returns the default options, whose count is 10 and whose length
is 16; `main` then generates 10 passwords, not the 1 that the usage text
documents. -/
theorem default_count_is_ten :
    (∀ stoull, parse_args stoull ["pwtool".data] = .opts {}) ∧
    ({} : Options).count = 10 ∧ ({} : Options).length = 16 ∧
    (∀ stoull, ∃ m pwds,
      main_passwords stoull ["pwtool".data] (draws counter 0 m) = some (.ok pwds []) ∧
        pwds.length = 10) := by
  refine ⟨fun _ => rfl, rfl, rfl, ?_⟩
  intro stoull
  have hS : (false = true) ∨ (S []).length ≤ 194 := Or.inr (by decide)
  obtain ⟨m, r, hr, hlen⟩ :=
    generate_passwords_completes 10 (le_refl 16) (by omega) [] false hS fair_counter [] 0
  exact ⟨m, r, by simp only [main_passwords, parse_args, List.drop, parse_args_loop]; rw [← hr],
    by simpa using hlen⟩

/-! ## The arguments passed to the sampler -/

theorem draw_minimums_calls_mem (cs : List (List Char)) :
    ∀ (out : List Char) (ds : List Draw) (n : Nat),
      n ∈ draw_minimums_calls cs out ds → ∃ cls ∈ cs, n = cls.length := by
  induction cs with
  | nil => intro out ds n h; simp [draw_minimums_calls] at h
  | cons c cs ih =>
    intro out ds n h
    rw [draw_minimums_calls] at h
    rcases List.mem_cons.mp h with rfl | h
    · exact ⟨c, List.mem_cons_self _ _, rfl⟩
    · split at h
      · rcases List.mem_cons.mp h with rfl | h
        · exact ⟨c, List.mem_cons_self _ _, rfl⟩
        · split at h
          · obtain ⟨cls, hcls, hn⟩ := ih _ _ _ h
            exact ⟨cls, List.mem_cons_of_mem _ hcls, hn⟩
          · simp at h
      · simp at h

theorem fill_calls_mem (k : Nat) (all : List Char) (length : Nat) :
    ∀ (out : List Char) (ds : List Draw) (n : Nat),
      n ∈ fill_calls k all length out ds → n = all.length := by
  induction k with
  | zero => intro out ds n h; simp [fill_calls] at h
  | succ k ih =>
    intro out ds n h
    rw [fill_calls] at h
    split at h
    · rcases List.mem_cons.mp h with rfl | h
      · rfl
      · split at h
        · exact ih _ _ _ h
        · simp at h
    · simp at h

theorem secure_shuffle_loop_calls_mem {α : Type} (i : Nat) :
    ∀ (v : List α) (ds : List Draw) (n : Nat),
      n ∈ secure_shuffle_loop_calls i v ds → 2 ≤ n ∧ n ≤ i := by
  induction i with
  | zero => intro v ds n h; simp [secure_shuffle_loop_calls] at h
  | succ i ih =>
    intro v ds n h
    rw [secure_shuffle_loop_calls] at h
    split at h
    · rcases List.mem_cons.mp h with rfl | h
      · omega
      · split at h
        · split at h
          · simp at h
          · have := ih _ _ _ h
            omega
        · simp at h
    · simp at h

/-- Every sampler argument of a generation is a class size, the size of the
combined alphabet, or a shuffle bound between 2 and the length. -/
theorem generate_password_calls_mem {length : Nat} {ov : List Char} {ns : Bool}
    {ds : List Draw} {n : Nat} (h : n ∈ generate_password_calls length ov ns ds) :
    (∃ cls ∈ cats ov ns, n = cls.length) ∨ n = (cats ov ns).flatten.length ∨
      (2 ≤ n ∧ n ≤ length) := by
  unfold generate_password_calls at h
  split at h
  · simp at h
  · rename_i hl
    simp only at h
    rcases List.mem_append.mp h with h | h
    · exact Or.inl (draw_minimums_calls_mem _ _ _ _ h)
    · split at h
      · rename_i out d1 h1
        rcases List.mem_append.mp h with h | h
        · exact Or.inr (Or.inl (fill_calls_mem _ _ _ _ _ _ h))
        · split at h
          · rename_i out1 d2 h2
            obtain ⟨picks, hout, hplen, _, _, _⟩ := draw_minimums_ok _ _ _ _ _ h1
            simp only [List.nil_append] at hout
            subst hout
            obtain ⟨extra, rfl, _, _, hlen⟩ := fill_ok _ _ _ _ _ _ _ h2
            have hcl := cats_length ov ns
            have hp8 : out.length ≤ 8 := by
              rw [hplen, hcl]; split <;> omega
            have hlen1 : (out ++ extra).length = length := hlen (by omega) (by omega)
            have := secure_shuffle_loop_calls_mem _ _ _ _ h
            exact Or.inr (Or.inr ⟨this.1, by omega⟩)
          · simp at h
      · simp at h

theorem cats_sizes (ov : List Char) (ns : Bool) :
    ∀ cls ∈ cats ov ns, 1 ≤ cls.length ∧ (ns = true ∨ (S ov).length ≤ 194 → cls.length ≤ 256) := by
  intro cls hcls
  have hU : U.length = 26 := rfl
  have hL : L.length = 26 := rfl
  have hD : D.length = 10 := rfl
  have hSpos := S_length_pos ov
  cases ns with
  | true =>
    simp only [cats, Bool.not_true, Bool.false_eq_true, if_false, List.append_nil,
      List.mem_cons, List.mem_singleton, List.not_mem_nil, or_false] at hcls
    rcases hcls with rfl | rfl | rfl <;> exact ⟨by omega, fun _ => by omega⟩
  | false =>
    simp only [cats, Bool.not_false, if_true, List.cons_append, List.nil_append,
      List.mem_cons, List.mem_singleton, List.not_mem_nil, or_false] at hcls
    rcases hcls with rfl | rfl | rfl | rfl
    · exact ⟨by omega, fun _ => by omega⟩
    · exact ⟨by omega, fun _ => by omega⟩
    · exact ⟨by omega, fun _ => by omega⟩
    · refine ⟨hSpos, fun h => ?_⟩
      have : (S ov).length ≤ 194 := by simpa using h
      omega

/-- No sampler argument of a generation is 0: the invalid-domain check of
`uniform_index` is never hit. -/
theorem generate_password_calls_pos {length : Nat} {ov : List Char} {ns : Bool}
    {ds : List Draw} {n : Nat} (h : n ∈ generate_password_calls length ov ns ds) :
    1 ≤ n := by
  rcases generate_password_calls_mem h with ⟨cls, hcls, rfl⟩ | rfl | ⟨h2, _⟩
  · exact (cats_sizes ov ns cls hcls).1
  · rw [cats_flatten_length]; split <;> omega
  · omega

/-- When the length is at most 256 and the special set in use has at most 194
characters (or specials are disabled), every sampler argument is at most
256. -/
theorem generate_password_calls_le {length : Nat} {ov : List Char} {ns : Bool}
    {ds : List Draw} {n : Nat} (h256 : length ≤ 256)
    (hS : ns = true ∨ (S ov).length ≤ 194)
    (h : n ∈ generate_password_calls length ov ns ds) : n ≤ 256 := by
  rcases generate_password_calls_mem h with ⟨cls, hcls, rfl⟩ | rfl | ⟨_, h2⟩
  · exact (cats_sizes ov ns cls hcls).2 hS
  · rw [cats_flatten_length]
    cases ns with
    | true => simp
    | false =>
      have : (S ov).length ≤ 194 := by simpa using hS
      simp only [Bool.false_eq_true, if_false]
      omega
  · omega

/-- C14 (the code at the failing input): a generation of length 300 with the
default arguments passes 300 to `uniform_index`, as the first bound of the
shuffle, once the minimum draws and the fill have returned. -/
theorem generate_password_passes_300 :
    ∃ m, 300 ∈ generate_password_calls 300 [] false (draws counter 0 m) := by
  have hcs : ∀ cls ∈ cats [] false, 1 ≤ cls.length ∧ cls.length ≤ 256 := by
    intro cls hcls
    have := cats_sizes [] false cls hcls
    exact ⟨this.1, this.2 (Or.inr (by decide))⟩
  have hall : (cats [] false).flatten.length = 85 := by decide
  obtain ⟨m1, out, h1, hout⟩ :=
    draw_minimums_completes (cats [] false) hcs fair_counter [] 0
  have hout8 : out.length = 8 := by rw [hout]; rfl
  obtain ⟨m2, out1, h2, hl⟩ :=
    fill_completes (300 - out.length)
      (show 1 ≤ (cats [] false).flatten.length by rw [hall]; omega)
      (show (cats [] false).flatten.length ≤ 256 by rw [hall]; omega)
      300 fair_counter out (0 + m1)
  have hlen : out1.length = 300 := hl (by omega) (by omega)
  refine ⟨m1 + m2, ?_⟩
  have hf := (draw_minimums_lawful (cats [] false) []).ok_frame _ _ _ h1
    (draws counter (0 + m1) m2)
  rw [List.nil_append] at hf
  unfold generate_password_calls
  rw [if_neg (by omega)]
  simp only [draws_append, hf, h2, hlen]
  apply List.mem_append_right
  apply List.mem_append_right
  rw [secure_shuffle_loop_calls, if_pos (by omega)]
  exact List.mem_cons_self _ _

/-! ## The shuffle as a bijection from index choices to permutations -/

theorem swap_getElem? {α : Type} {v v1 : List α} {a b : Nat}
    (h : swap v a b = some v1) (p : Nat) :
    v1[p]? = if p = b then v[a]? else if p = a then v[b]? else v[p]? := by
  obtain ⟨ha, hb, rfl⟩ := swap_some h
  rw [List.getElem?_set, List.getElem?_set]
  have hb1 : b < (v.set a v[b]).length := by simpa using hb
  by_cases h1 : p = b
  · subst h1
    simp [hb1, hb, List.getElem?_eq_getElem ha]
  · by_cases h2 : p = a
    · subst h2
      have hne : ¬ b = p := fun h => h1 h.symm
      simp [hne, h1, ha, List.getElem?_eq_getElem hb]
    · have hne1 : ¬ b = p := fun h => h1 h.symm
      have hne2 : ¬ a = p := fun h => h2 h.symm
      simp [hne1, hne2, h1, h2]

theorem swap_nodup {α : Type} {v v1 : List α} {a b : Nat} (h : swap v a b = some v1)
    (hv : v.Nodup) : v1.Nodup :=
  (swap_perm h).nodup_iff.mpr hv

theorem shuffle_with_succ {α : Type} (i : Nat) (v : List α) (js : List Nat) :
    shuffle_with (i + 1) v js =
      if i + 1 > 1 then
        match js with
        | [] => none
        | j :: js1 =>
          match swap v i j with
          | none => none
          | some v1 => shuffle_with i v1 js1
      else some v := by
  cases js <;> rfl

theorem valid_choices_succ (i : Nat) (js : List Nat) :
    valid_choices (i + 1) js =
      if i + 1 > 1 then
        match js with
        | [] => false
        | j :: js1 => decide (j < i + 1) && valid_choices i js1
      else js.isEmpty := by
  cases js <;> rfl

theorem shuffle_with_perm {α : Type} (i : Nat) :
    ∀ (v w : List α) (js : List Nat), shuffle_with i v js = some w → w.Perm v := by
  induction i with
  | zero =>
    intro v w js h
    simp only [shuffle_with, Option.some.injEq] at h
    rw [h]
  | succ i ih =>
    intro v w js h
    rw [shuffle_with_succ] at h
    split at h
    · cases js with
      | nil => simp at h
      | cons j js1 =>
        simp only at h
        cases hs : swap v i j with
        | none => simp [hs] at h
        | some v1 =>
          simp only [hs] at h
          exact (ih _ _ _ h).trans (swap_perm hs)
    · simp only [Option.some.injEq] at h
      rw [h]

/-- Positions at or above the loop variable are not touched by the rest of the
shuffle. -/
theorem shuffle_with_above {α : Type} (i : Nat) :
    ∀ (v w : List α) (js : List Nat), valid_choices i js = true →
      shuffle_with i v js = some w → ∀ p, i ≤ p → w[p]? = v[p]? := by
  induction i with
  | zero =>
    intro v w js _ h p _
    simp only [shuffle_with, Option.some.injEq] at h
    rw [h]
  | succ i ih =>
    intro v w js hval h p hp
    rw [shuffle_with_succ] at h
    rw [valid_choices_succ] at hval
    split at h
    · rename_i hi
      rw [if_pos hi] at hval
      cases js with
      | nil => simp at h
      | cons j js1 =>
        simp only [Bool.and_eq_true, decide_eq_true_eq] at hval h
        cases hs : swap v i j with
        | none => simp [hs] at h
        | some v1 =>
          simp only [hs] at h
          rw [ih _ _ _ hval.2 h p (by omega), swap_getElem? hs p]
          have h1 : ¬ p = j := by omega
          have h2 : ¬ p = i := by omega
          simp [h1, h2]
    · simp only [Option.some.injEq] at h
      rw [h]

/-- The element that an iteration moves to position `i - 1` stays there. -/
theorem shuffle_with_top {α : Type} {i j : Nat} {v v1 w : List α} {js1 : List Nat}
    (hs : swap v i j = some v1) (hval : valid_choices i js1 = true)
    (h : shuffle_with i v1 js1 = some w) : w[i]? = v[j]? := by
  rw [shuffle_with_above i v1 w js1 hval h i (le_refl _), swap_getElem? hs i]
  by_cases hij : i = j
  · subst hij; simp
  · simp [hij]

theorem shuffle_with_injective {α : Type} (i : Nat) :
    ∀ (v w : List α) (js js' : List Nat), v.Nodup → i ≤ v.length →
      valid_choices i js = true → valid_choices i js' = true →
      shuffle_with i v js = some w → shuffle_with i v js' = some w → js = js' := by
  induction i with
  | zero =>
    intro v w js js' _ _ h1 h2 _ _
    simp only [valid_choices, List.isEmpty_iff] at h1 h2
    rw [h1, h2]
  | succ i ih =>
    intro v w js js' hnd hlen h1 h2 hw hw'
    rw [valid_choices_succ] at h1 h2
    rw [shuffle_with_succ] at hw hw'
    by_cases hi : i + 1 > 1
    · rw [if_pos hi] at h1 h2 hw hw'
      cases js with
      | nil => simp at h1
      | cons j js1 =>
        cases js' with
        | nil => simp at h2
        | cons j' js1' =>
          simp only [Bool.and_eq_true, decide_eq_true_eq] at h1 h2 hw hw'
          cases hs : swap v i j with
          | none => simp [hs] at hw
          | some v1 =>
            cases hs' : swap v i j' with
            | none => simp [hs'] at hw'
            | some v1' =>
              simp only [hs] at hw
              simp only [hs'] at hw'
              have e1 := shuffle_with_top hs h1.2 hw
              have e2 := shuffle_with_top hs' h2.2 hw'
              have hjj : j = j' :=
                List.getElem?_inj (show j < v.length by omega) hnd (e1.symm.trans e2)
              subst hjj
              rw [hs] at hs'
              injection hs' with hv
              subst hv
              rw [ih v1 w js1 js1' (swap_nodup hs hnd) (by rw [swap_length hs]; omega)
                h1.2 h2.2 hw hw']
    · rw [if_neg hi] at h1 h2
      simp only [List.isEmpty_iff] at h1 h2
      rw [h1, h2]

/-- In a permutation `w` of a duplicate-free `v` that agrees with `v` above
position `i`, the element at position `i` is found in `v` at or below `i`. -/
theorem perm_top_index {α : Type} {v w : List α} (hnd : v.Nodup) (hp : w.Perm v)
    {i : Nat} (hi : i < v.length) (hag : ∀ p, i < p → w[p]? = v[p]?) :
    ∃ j, j ≤ i ∧ v[j]? = w[i]? := by
  have hwl : w.length = v.length := hp.length_eq
  have hwi : i < w.length := by omega
  have hmem : w[i] ∈ v := hp.mem_iff.mp (List.getElem_mem hwi)
  obtain ⟨j, hj⟩ := List.mem_iff_getElem?.mp hmem
  have hjl : j < v.length := (List.getElem?_eq_some_iff.mp hj).1
  refine ⟨j, ?_, by rw [hj, List.getElem?_eq_getElem hwi]⟩
  by_contra hgt
  have hlt : i < j := by omega
  have hwj : w[j]? = w[i]? := by
    rw [hag j hlt, hj, List.getElem?_eq_getElem hwi]
  have := List.getElem?_inj (show j < w.length by omega) (hp.nodup_iff.mpr hnd) hwj
  omega

theorem shuffle_with_surjective {α : Type} (i : Nat) :
    ∀ (v w : List α), v.Nodup → i ≤ v.length → w.Perm v →
      (∀ p, i ≤ p → w[p]? = v[p]?) →
      ∃ js, valid_choices i js = true ∧ shuffle_with i v js = some w := by
  induction i with
  | zero =>
    intro v w _ _ _ hag
    have : w = v := List.ext_getElem? fun p => hag p (Nat.zero_le _)
    exact ⟨[], rfl, by rw [this]; rfl⟩
  | succ i ih =>
    intro v w hnd hlen hp hag
    obtain ⟨j, hji, hj⟩ := perm_top_index hnd hp (show i < v.length by omega)
      (fun p hp1 => hag p (by omega))
    have hsw := swap_of_lt v (show i < v.length by omega) (show j < v.length by omega)
    by_cases hi : i + 1 > 1
    · have hag1 : ∀ p, i ≤ p → w[p]? = ((v.set i v[j]).set j v[i])[p]? := by
        intro p hp1
        rw [swap_getElem? hsw p]
        by_cases hpi : p = i
        · subst hpi
          by_cases hpj : p = j
          · subst hpj; simp [hj]
          · simp [hpj, hj]
        · have hpj : ¬ p = j := by omega
          simp only [hpj, hpi, if_false]
          exact hag p (by omega)
      obtain ⟨js1, hv1, hs1⟩ := ih _ w (swap_nodup hsw hnd)
        (by rw [swap_length hsw]; omega) (hp.trans (swap_perm hsw).symm) hag1
      refine ⟨j :: js1, ?_, ?_⟩
      · rw [valid_choices_succ, if_pos hi]
        simp only [Bool.and_eq_true, decide_eq_true_eq]
        exact ⟨by omega, hv1⟩
      · rw [shuffle_with_succ, if_pos hi]
        simp only [hsw]
        exact hs1
    · have hi0 : i = 0 := by omega
      subst hi0
      have hj0 : j = 0 := by omega
      subst hj0
      have : w = v := by
        apply List.ext_getElem?
        intro p
        by_cases hp0 : p = 0
        · subst hp0; exact hj.symm
        · exact hag p (by omega)
      refine ⟨[], ?_, ?_⟩
      · rw [valid_choices_succ, if_neg hi]; rfl
      · rw [shuffle_with_succ, if_neg hi, this]

theorem le_limit {n : Nat} (h1 : 1 ≤ n) (h2 : n ≤ 256) : n ≤ limit n := by
  rw [limit_eq_mul]
  exact Nat.le_mul_of_pos_right n (Nat.div_pos h2 (by omega))

/-- A byte below `n` is accepted by `uniform_index(n)` and returned as it is. -/
theorem uniform_index_of_lt {n j : Nat} (h2 : n ≤ 256) (hj : j < n) (rest : List Draw) :
    uniform_index n (some (Fin.ofNat j) :: rest) = .ok j rest := by
  have hn : n ≠ 0 := by omega
  have hval : ((Fin.ofNat j : Byte)).val = j := Nat.mod_eq_of_lt (by omega)
  have hlim := le_limit (show 1 ≤ n by omega) h2
  have hb : ¬ ((Fin.ofNat j : Byte)).val ≥ limit n := by rw [hval]; omega
  simp only [uniform_index, if_neg hn]
  rw [uniform_index_loop, if_neg hb, hval, Nat.mod_eq_of_lt hj]

/-- Draws that realise given index choices: the shuffle run on them makes
exactly those choices. -/
theorem secure_shuffle_loop_of_choices {α : Type} (i : Nat) :
    ∀ (v : List α) (js : List Nat) (rest : List Draw), i ≤ 256 → i ≤ v.length →
      valid_choices i js = true →
      ∃ w, shuffle_with i v js = some w ∧
        secure_shuffle_loop i v (js.map (fun j => some (Fin.ofNat j)) ++ rest) =
          .ok w rest := by
  induction i with
  | zero =>
    intro v js rest _ _ hval
    simp only [valid_choices, List.isEmpty_iff] at hval
    subst hval
    exact ⟨v, rfl, rfl⟩
  | succ i ih =>
    intro v js rest h256 hlen hval
    rw [valid_choices_succ] at hval
    by_cases hi : i + 1 > 1
    · rw [if_pos hi] at hval
      cases js with
      | nil => simp at hval
      | cons j js1 =>
        simp only [Bool.and_eq_true, decide_eq_true_eq] at hval
        have hsw := swap_of_lt v (show i < v.length by omega) (show j < v.length by omega)
        obtain ⟨w, hw, hrun⟩ := ih ((v.set i v[j]).set j v[i]) js1 rest (by omega)
          (by rw [swap_length hsw]; omega) hval.2
        refine ⟨w, ?_, ?_⟩
        · rw [shuffle_with_succ, if_pos hi]
          simp only [hsw]
          exact hw
        · rw [List.map_cons, List.cons_append, secure_shuffle_loop, if_pos hi,
            uniform_index_of_lt h256 hval.1]
          simp only [Res.bind, hsw]
          exact hrun
    · rw [if_neg hi, List.isEmpty_iff] at hval
      subst hval
      refine ⟨v, ?_, ?_⟩
      · rw [shuffle_with_succ, if_neg hi]
      · rw [secure_shuffle_loop, if_neg hi]
        rfl

/-- Every returning run of the shuffle makes some valid index choices. -/
theorem secure_shuffle_loop_choices {α : Type} (i : Nat) :
    ∀ (v w : List α) (ds rest : List Draw),
      secure_shuffle_loop i v ds = .ok w rest →
      ∃ js, valid_choices i js = true ∧ shuffle_with i v js = some w := by
  induction i with
  | zero =>
    intro v w ds rest h
    simp only [secure_shuffle_loop] at h
    injection h with h1
    exact ⟨[], rfl, by rw [← h1]; rfl⟩
  | succ i ih =>
    intro v w ds rest h
    rw [secure_shuffle_loop] at h
    split at h
    · rename_i hi
      cases hu : uniform_index (i + 1) ds with
      | ok j ds1 =>
        simp only [hu, Res.bind] at h
        have hj := (uniform_index_ok hu).2.2.1
        cases hs : swap v i j with
        | none => simp [hs] at h
        | some v1 =>
          simp only [hs] at h
          obtain ⟨js1, hv1, hw1⟩ := ih _ _ _ _ h
          refine ⟨j :: js1, ?_, ?_⟩
          · rw [valid_choices_succ, if_pos hi]
            simp only [Bool.and_eq_true, decide_eq_true_eq]
            exact ⟨hj, hv1⟩
          · rw [shuffle_with_succ, if_pos hi]
            simp only [hs]
            exact hw1
      | err e => simp [hu, Res.bind] at h
      | starved => simp [hu, Res.bind] at h
    · rename_i hi
      injection h with h1
      refine ⟨[], ?_, ?_⟩
      · rw [valid_choices_succ, if_neg hi]; rfl
      · rw [shuffle_with_succ, if_neg hi, h1]

/-! ## The indices a run of the shuffle draws -/

theorem draw_indices_succ (i : Nat) (ds : List Draw) :
    draw_indices (i + 1) ds =
      if i + 1 > 1 then
        (uniform_index (i + 1) ds).bind fun j ds1 =>
          (draw_indices i ds1).bind fun js ds2 => .ok (j :: js) ds2
      else .ok [] ds := rfl

/-- The shuffle is: draw the indices with `uniform_index(i)` for
`i = m, ..., 2`, then apply the swaps with those indices. -/
theorem secure_shuffle_loop_factors {α : Type} (i : Nat) :
    ∀ (v : List α) (ds : List Draw), i ≤ v.length →
      secure_shuffle_loop i v ds =
        (draw_indices i ds).bind fun js rest =>
          match shuffle_with i v js with
          | some w => .ok w rest
          | none => .err .outOfRange := by
  induction i with
  | zero => intro v ds _; rfl
  | succ i ih =>
    intro v ds hlen
    rw [secure_shuffle_loop, draw_indices_succ]
    by_cases hi : i + 1 > 1
    · rw [if_pos hi, if_pos hi]
      cases hu : uniform_index (i + 1) ds with
      | ok j ds1 =>
        have hj := (uniform_index_ok hu).2.2.1
        have hsw := swap_of_lt v (show i < v.length by omega) (show j < v.length by omega)
        simp only [Res.bind, hsw]
        rw [ih _ ds1 (by rw [swap_length hsw]; omega)]
        cases hd : draw_indices i ds1 with
        | ok js ds2 =>
          simp only [Res.bind]
          rw [shuffle_with_succ, if_pos hi]
          simp only [hsw]
        | err e => rfl
        | starved => rfl
      | err e => rfl
      | starved => rfl
    · rw [if_neg hi, if_neg hi]
      simp only [Res.bind]
      rw [shuffle_with_succ, if_neg hi]

/-- The indices a run draws are valid choices, one per iteration, and each
call reads at least one draw. -/
theorem draw_indices_ok (i : Nat) :
    ∀ (ds rest : List Draw) (js : List Nat), draw_indices i ds = .ok js rest →
      valid_choices i js = true ∧ rest.length + (i - 1) ≤ ds.length := by
  induction i with
  | zero =>
    intro ds rest js h
    simp only [draw_indices] at h
    injection h with h1 h2
    subst h1 h2
    exact ⟨rfl, by simp⟩
  | succ i ih =>
    intro ds rest js h
    rw [draw_indices_succ] at h
    by_cases hi : i + 1 > 1
    · rw [if_pos hi] at h
      cases hu : uniform_index (i + 1) ds with
      | ok j ds1 =>
        simp only [hu, Res.bind] at h
        cases hd : draw_indices i ds1 with
        | ok js1 ds2 =>
          simp only [hd] at h
          injection h with h1 h2
          subst h1 h2
          obtain ⟨hv, hl⟩ := ih _ _ _ hd
          obtain ⟨_, _, hj, pre, b, hds, _⟩ := uniform_index_ok hu
          refine ⟨?_, ?_⟩
          · rw [valid_choices_succ, if_pos hi]
            simp only [Bool.and_eq_true, decide_eq_true_eq]
            exact ⟨hj, hv⟩
          · rw [hds]
            simp only [List.length_append, List.length_map, List.length_cons]
            omega
        | err e => simp [hd] at h
        | starved => simp [hd] at h
      | err e => simp [hu, Res.bind] at h
      | starved => simp [hu, Res.bind] at h
    · rw [if_neg hi] at h
      injection h with h1 h2
      subst h1 h2
      refine ⟨by rw [valid_choices_succ, if_neg hi]; rfl, by simp; omega⟩

theorem byte_runs_succ (i : Nat) (js : List Nat) :
    byte_runs (i + 1) js =
      if i + 1 > 1 then
        match js with
        | [] => ∅
        | j :: js1 =>
          ((Finset.univ.filter fun b : Byte =>
              b.val < limit (i + 1) ∧ b.val % (i + 1) = j) ×ˢ
            byte_runs i js1).image fun p => p.1 :: p.2
      else if js.isEmpty then {[]} else ∅ := by
  cases js <;> rfl

/-- A single accepted draw: `uniform_index(n)` on a byte below the threshold
returns its remainder and leaves the rest unread. -/
theorem uniform_index_accept {n : Nat} (hn : n ≠ 0) {b : Byte} (hb : b.val < limit n)
    (rest : List Draw) : uniform_index n (some b :: rest) = .ok (b.val % n) rest := by
  have hb1 : ¬ b.val ≥ limit n := by omega
  simp only [uniform_index, if_neg hn]
  rw [uniform_index_loop, if_neg hb1]

/-- The byte sequences of `byte_runs i js` are exactly the sequences of `i - 1`
bytes on which the shuffle draws the indices `js` and reads every byte. -/
theorem mem_byte_runs (i : Nat) :
    ∀ (js : List Nat) (bs : List Byte),
      bs ∈ byte_runs i js ↔
        bs.length = i - 1 ∧ draw_indices i (bs.map some) = .ok js [] := by
  induction i with
  | zero =>
    intro js bs
    cases js with
    | nil =>
      simp only [byte_runs, List.isEmpty_nil, if_true, Finset.mem_singleton, draw_indices]
      constructor
      · rintro rfl; exact ⟨rfl, rfl⟩
      · rintro ⟨h, _⟩; exact List.length_eq_zero.mp h
    | cons j js1 =>
      simp only [byte_runs, List.isEmpty_cons, Bool.false_eq_true, if_false,
        Finset.not_mem_empty, draw_indices, false_iff]
      rintro ⟨_, h⟩
      injection h with h1
      cases h1
  | succ i ih =>
    intro js bs
    rw [byte_runs_succ, draw_indices_succ]
    by_cases hi : i + 1 > 1
    · rw [if_pos hi, if_pos hi]
      cases js with
      | nil =>
        simp only [Finset.not_mem_empty, false_iff]
        rintro ⟨_, h⟩
        cases hu : uniform_index (i + 1) (bs.map some) with
        | ok j ds1 =>
          simp only [hu, Res.bind] at h
          cases hd : draw_indices i ds1 with
          | ok js1 ds2 => simp [hd] at h
          | err e => simp [hd] at h
          | starved => simp [hd] at h
        | err e => simp [hu, Res.bind] at h
        | starved => simp [hu, Res.bind] at h
      | cons j js1 =>
        simp only [Finset.mem_image, Finset.mem_product, Finset.mem_filter,
          Finset.mem_univ, true_and, Prod.exists]
        constructor
        · rintro ⟨b, bs1, ⟨⟨hb, hbj⟩, hmem⟩, rfl⟩
          obtain ⟨hl1, hd1⟩ := (ih js1 bs1).mp hmem
          refine ⟨by simp only [List.length_cons]; omega, ?_⟩
          rw [List.map_cons, uniform_index_accept (by omega) hb]
          simp only [Res.bind, hd1, hbj]
        · rintro ⟨hl, h⟩
          cases hu : uniform_index (i + 1) (bs.map some) with
          | ok j0 ds1 =>
            simp only [hu, Res.bind] at h
            cases hd : draw_indices i ds1 with
            | ok js0 ds2 =>
              simp only [hd] at h
              injection h with h1 h2
              injection h1 with hj hjs
              subst hj hjs h2
              obtain ⟨_, _, _, pre, b, hds, _, hb, hjb⟩ := uniform_index_ok hu
              have hlen := (draw_indices_ok i _ _ _ hd).2
              have hlds := congrArg List.length hds
              simp only [List.length_map, List.length_append, List.length_cons,
                List.length_nil] at hlds hlen
              have hpre : pre = [] := List.length_eq_zero.mp (by omega)
              subst hpre
              simp only [List.map_nil, List.nil_append] at hds
              cases bs with
              | nil => simp at hds
              | cons b0 bs1 =>
                simp only [List.map_cons, List.cons.injEq, Option.some.injEq] at hds
                obtain ⟨hb0, hds1⟩ := hds
                subst hb0 hds1
                refine ⟨b0, bs1, ⟨⟨hb, hjb.symm⟩, ?_⟩, rfl⟩
                exact (ih js0 bs1).mpr ⟨by simp only [List.length_cons] at hl; omega, hd⟩
            | err e => simp [hd] at h
            | starved => simp [hd] at h
          | err e => simp [hu, Res.bind] at h
          | starved => simp [hu, Res.bind] at h
    · rw [if_neg hi, if_neg hi]
      have hi0 : i = 0 := by omega
      subst hi0
      cases js with
      | nil =>
        simp only [List.isEmpty_nil, if_true, Finset.mem_singleton]
        constructor
        · rintro rfl; exact ⟨rfl, rfl⟩
        · rintro ⟨h, _⟩; exact List.length_eq_zero.mp h
      | cons j js1 =>
        simp only [List.isEmpty_cons, Bool.false_eq_true, if_false,
          Finset.not_mem_empty, false_iff]
        rintro ⟨_, h⟩
        injection h with h1
        cases h1

/-- Every valid choice of indices is drawn on the same number of byte
sequences: `256 / k` bytes for the iteration with loop variable `k`. -/
theorem card_byte_runs (i : Nat) :
    ∀ js : List Nat, valid_choices i js = true →
      (byte_runs i js).card = Finset.prod (Finset.Icc 2 i) fun k => 256 / k := by
  induction i with
  | zero =>
    intro js hval
    simp only [valid_choices, List.isEmpty_iff] at hval
    subst hval
    rfl
  | succ i ih =>
    intro js hval
    rw [valid_choices_succ] at hval
    rw [byte_runs_succ]
    by_cases hi : i + 1 > 1
    · rw [if_pos hi] at hval ⊢
      cases js with
      | nil => simp at hval
      | cons j js1 =>
        simp only [Bool.and_eq_true, decide_eq_true_eq] at hval
        have hinj : Function.Injective fun p : Byte × List Byte => p.1 :: p.2 := by
          rintro ⟨a, l⟩ ⟨b, m⟩ h
          simp only [List.cons.injEq] at h
          rw [h.1, h.2]
        simp only
        rw [Finset.card_image_of_injective _ hinj, Finset.card_product,
          card_accepted_to (i + 1) (by omega) j hval.1, ih js1 hval.2,
          Finset.prod_Icc_succ_top (by omega), Nat.mul_comm]
    · rw [if_neg hi] at hval ⊢
      have hi0 : i = 0 := by omega
      subst hi0
      simp only [List.isEmpty_iff] at hval
      subst hval
      rfl

/-- A run of the shuffle returns `w` exactly when the indices it draws, with
`uniform_index(i)` for `i = m, ..., 2`, are choices that the swaps turn into
`w`. -/
theorem secure_shuffle_ok_iff {α : Type} (v w : List α) (ds rest : List Draw) :
    secure_shuffle v ds = .ok w rest ↔
      ∃ js, draw_indices v.length ds = .ok js rest ∧
        shuffle_with v.length v js = some w := by
  unfold secure_shuffle
  rw [secure_shuffle_loop_factors v.length v ds (le_refl _)]
  constructor
  · intro h
    cases hd : draw_indices v.length ds with
    | ok js r =>
      simp only [hd, Res.bind] at h
      cases hs : shuffle_with v.length v js with
      | none => simp [hs] at h
      | some w1 =>
        simp only [hs] at h
        injection h with h1 h2
        subst h1 h2
        exact ⟨js, rfl, hs⟩
    | err e => simp [hd, Res.bind] at h
    | starved => simp [hd, Res.bind] at h
  · rintro ⟨js, hd, hs⟩
    simp only [hd, Res.bind, hs]

/-- C15: for a vector `v` of `m` pairwise distinct elements, `2 ≤ m ≤ 256`,
`secure_shuffle` is a Fisher-Yates pass giving a uniformly random permutation.
A run returns `w` exactly when the indices it draws, `j_i` by
`uniform_index(i)` for `i = m, ..., 2`, are turned into `w` by the swaps of
positions `i - 1` and `j_i`; the drawn indices satisfy `j_i < i`. The map from
such index choices to arrangements is one-to-one onto the permutations of
`v`, of which there are `m!`: each choice gives a permutation and is drawn by
a run, different choices give different arrangements, every permutation comes
from a choice. Every permutation is returned on the same number of
`(m - 1)`-byte draw sequences, the product of `256 / i` over `i = 2, ..., m`. -/
theorem secure_shuffle_bijection {α : Type} (v : List α) (hnd : v.Nodup)
    (_h2 : 2 ≤ v.length) (h256 : v.length ≤ 256) :
    (∀ (ds rest : List Draw) (w : List α),
      secure_shuffle v ds = .ok w rest ↔
        ∃ js, draw_indices v.length ds = .ok js rest ∧
          shuffle_with v.length v js = some w) ∧
    (∀ (ds rest : List Draw) (js : List Nat),
      draw_indices v.length ds = .ok js rest → valid_choices v.length js = true) ∧
    (∀ js, valid_choices v.length js = true →
      ∃ w, shuffle_with v.length v js = some w ∧ w.Perm v ∧
        draw_indices v.length (js.map fun j => some (Fin.ofNat j)) = .ok js [] ∧
        secure_shuffle v (js.map fun j => some (Fin.ofNat j)) = .ok w []) ∧
    (∀ js js', valid_choices v.length js = true → valid_choices v.length js' = true →
      shuffle_with v.length v js = shuffle_with v.length v js' → js = js') ∧
    (∀ w, w.Perm v →
      ∃ js, valid_choices v.length js = true ∧ shuffle_with v.length v js = some w) ∧
    (∀ w, w.Perm v →
      ∃ F : Finset (List Byte),
        (∀ bs : List Byte, bs ∈ F ↔
          bs.length = v.length - 1 ∧ secure_shuffle v (bs.map some) = .ok w []) ∧
        F.card = Finset.prod (Finset.Icc 2 v.length) fun k => 256 / k) ∧
    v.permutations.length = v.length.factorial ∧ v.permutations.Nodup ∧
    (∀ w, w ∈ v.permutations ↔ w.Perm v) := by
  have hinj : ∀ (w : List α) (js js' : List Nat), valid_choices v.length js = true →
      valid_choices v.length js' = true → shuffle_with v.length v js = some w →
      shuffle_with v.length v js' = some w → js = js' :=
    fun w js js' h1 h2 h3 h4 =>
      shuffle_with_injective v.length v w js js' hnd (le_refl _) h1 h2 h3 h4
  refine ⟨fun ds rest w => secure_shuffle_ok_iff v w ds rest,
    fun ds rest js h => (draw_indices_ok _ _ _ _ h).1, ?_, ?_, ?_, ?_,
    List.length_permutations v, List.nodup_permutations v hnd,
    fun w => List.mem_permutations⟩
  · intro js hval
    obtain ⟨w, hw, hrun⟩ :=
      secure_shuffle_loop_of_choices v.length v js [] h256 (le_refl _) hval
    rw [List.append_nil] at hrun
    have hrun1 : secure_shuffle v (js.map fun j => some (Fin.ofNat j)) = .ok w [] := hrun
    obtain ⟨js1, hd, hs⟩ := (secure_shuffle_ok_iff v w _ _).mp hrun1
    have hjs : js1 = js := hinj w js1 js (draw_indices_ok _ _ _ _ hd).1 hval hs hw
    rw [hjs] at hd
    exact ⟨w, hw, shuffle_with_perm _ _ _ _ hw, hd, hrun1⟩
  · intro js js' hval hval' heq
    obtain ⟨w, hw, _⟩ :=
      secure_shuffle_loop_of_choices v.length v js [] h256 (le_refl _) hval
    exact hinj w js js' hval hval' hw (heq ▸ hw)
  · intro w hp
    exact shuffle_with_surjective v.length v w hnd (le_refl _) hp fun p hp1 => by
      rw [List.getElem?_eq_none (by rw [hp.length_eq]; exact hp1),
        List.getElem?_eq_none hp1]
  · intro w hp
    obtain ⟨js, hval, hs⟩ :=
      shuffle_with_surjective v.length v w hnd (le_refl _) hp fun p hp1 => by
        rw [List.getElem?_eq_none (by rw [hp.length_eq]; exact hp1),
          List.getElem?_eq_none hp1]
    refine ⟨byte_runs v.length js, ?_, card_byte_runs v.length js hval⟩
    intro bs
    rw [mem_byte_runs, secure_shuffle_ok_iff]
    constructor
    · rintro ⟨hl, hd⟩
      exact ⟨hl, js, hd, hs⟩
    · rintro ⟨hl, js1, hd, hs1⟩
      have hjs : js1 = js := hinj w js1 js (draw_indices_ok _ _ _ _ hd).1 hval hs1 hs
      rw [hjs] at hd
      exact ⟨hl, hd⟩

/-- C15, at the vector `a b c`: 3! = 6 permutations, each returned on
`(256 / 2) * (256 / 3)` two-byte draw sequences. -/
theorem secure_shuffle_bijection_witness :
    (∀ (ds rest : List Draw) (w : List Char),
      secure_shuffle ['a', 'b', 'c'] ds = .ok w rest ↔
        ∃ js, draw_indices ['a', 'b', 'c'].length ds = .ok js rest ∧
          shuffle_with ['a', 'b', 'c'].length ['a', 'b', 'c'] js = some w) ∧
    (∀ (ds rest : List Draw) (js : List Nat),
      draw_indices ['a', 'b', 'c'].length ds = .ok js rest →
        valid_choices ['a', 'b', 'c'].length js = true) ∧
    (∀ js, valid_choices ['a', 'b', 'c'].length js = true →
      ∃ w, shuffle_with ['a', 'b', 'c'].length ['a', 'b', 'c'] js = some w ∧
        w.Perm ['a', 'b', 'c'] ∧
        draw_indices ['a', 'b', 'c'].length (js.map fun j => some (Fin.ofNat j)) =
          .ok js [] ∧
        secure_shuffle ['a', 'b', 'c'] (js.map fun j => some (Fin.ofNat j)) = .ok w []) ∧
    (∀ js js', valid_choices ['a', 'b', 'c'].length js = true →
      valid_choices ['a', 'b', 'c'].length js' = true →
      shuffle_with ['a', 'b', 'c'].length ['a', 'b', 'c'] js =
        shuffle_with ['a', 'b', 'c'].length ['a', 'b', 'c'] js' → js = js') ∧
    (∀ w, w.Perm ['a', 'b', 'c'] →
      ∃ js, valid_choices ['a', 'b', 'c'].length js = true ∧
        shuffle_with ['a', 'b', 'c'].length ['a', 'b', 'c'] js = some w) ∧
    (∀ w, w.Perm ['a', 'b', 'c'] →
      ∃ F : Finset (List Byte),
        (∀ bs : List Byte, bs ∈ F ↔
          bs.length = ['a', 'b', 'c'].length - 1 ∧
            secure_shuffle ['a', 'b', 'c'] (bs.map some) = .ok w []) ∧
        F.card = Finset.prod (Finset.Icc 2 ['a', 'b', 'c'].length) fun k => 256 / k) ∧
    ['a', 'b', 'c'].permutations.length = ['a', 'b', 'c'].length.factorial ∧
    ['a', 'b', 'c'].permutations.Nodup ∧
    (∀ w, w ∈ ['a', 'b', 'c'].permutations ↔ w.Perm ['a', 'b', 'c']) :=
  secure_shuffle_bijection ['a', 'b', 'c'] (by decide) (by decide) (by decide)

end PwTool
